import Mathlib

/-!
Transaction mempool (gemmill/mempool/mempool.go).

A shallow embedding of the mempool of `gemmill/mempool/mempool.go`: the
seen-cache `txCache`, the pool of admitted transactions, the filter chain and
the coordinator operations `ReceiveTx`, `Reap`, `Update` and `Flush`, executed
sequentially.  A Go panic is the result `none`.
-/

namespace AnnChain

/-! ## Data model -/

/-- One byte of a transaction. -/
abbrev Byte := Fin 256

/-- `types.Tx`: an opaque byte string; its identity is the byte sequence. -/
abbrev Tx := List Byte

/-- A Go `error` value: the package variable `ErrTxInCache`, or a value made by
`errors.New msg`. -/
inductive GoError where
  | ErrTxInCache : GoError
  | New (msg : String) : GoError
  deriving DecidableEq, Repr

/-- The method `Error()` of an error value. -/
def GoError.Error : GoError → String
  | .ErrTxInCache => "Tx already exists in cache"
  | .New msg => msg

/-- Two's complement wrap-around of a 64-bit signed integer. -/
def wrapInt64 (x : Int) : Int :=
  (x + 2 ^ 63) % 2 ^ 64 - 2 ^ 63

/-- `const cacheSize = 100000`. -/
def cacheSize : Int := 100000

/-- `types.TxInPool`: an entry of the pool. -/
structure TxInPool where
  Counter : Int
  Height : Int
  Tx : Tx
  deriving DecidableEq, Repr

/-- Modelled from the spec: `clist.CList` (package go-clist, not part of the
sources at hand) is the Pool, "an ordered sequence of PooledTx supporting append
at tail, in-place removal, traversal from head".  The sequence is a list, head
first; a traversal that removes the element under the cursor still advances to
the element that followed it. -/
abbrev CList := List TxInPool

/-- Modelled from the spec: `CList.Len`, the "current pool length". -/
def CList.Len (l : CList) : Int := (List.length l : Int)

/-- Modelled from the spec: `CList.PushBack`, "append at tail". -/
def CList.PushBack (l : CList) (v : TxInPool) : CList := l ++ [v]

/-- Modelled from the spec: `types.IFilter`, a "stateless validator plug-in"
`check_tx(tx) → (result, error)`; only the error is used by the mempool, `none`
is the nil error. -/
structure IFilter where
  CheckTx : Tx → Option GoError

/-- Modelled from the spec: `auto.AutoFile` (package go-autofile, not part of the
sources at hand), the append-only log behind the WAL.  `log` is the bytes appended so
far. -/
structure AutoFile where
  log : List Byte
  deriving DecidableEq, Repr

/-- Modelled from the spec: `AutoFile.Write` (package go-autofile), by which "admitted
transactions are appended as `bytes || 0x0A`": it appends the bytes to the log.  A
write that fails is not modelled. -/
def AutoFile.Write (af : AutoFile) (b : List Byte) : AutoFile :=
  { log := af.log ++ b }

/-- The configuration keys read by the mempool (`viper.Viper`). -/
structure Config where
  block_size : Int
  mempool_enable_txs_limits : Bool
  mempool_wal_dir : String
  deriving DecidableEq, Repr

/-- Modelled from the spec: `gcmn.MinInt` (package go-common), the smaller of two
ints. -/
def MinInt (a b : Int) : Int := if a < b then a else b

/-! ## Seen-cache -/

/-- `txCache`: `checkMap` is the set of keys of the Go map, `list` the
insertion-order list (front first). -/
structure txCache where
  size : Int
  checkMap : Finset Tx
  list : List Tx

/-- `newTxCache`. -/
def newTxCache (cacheSize : Int) : txCache :=
  { size := cacheSize, checkMap := ∅, list := [] }

/-- `txCache.Reset`. -/
def txCache.Reset (cache : txCache) : txCache :=
  { cache with checkMap := ∅, list := [] }

/-- `txCache.Exists`. -/
def txCache.Exists (cache : txCache) (tx : Tx) : Bool :=
  decide (tx ∈ cache.checkMap)

/-- `txCache.Push`: returns false if tx is in the cache.  When the list is at
capacity its front is popped and deleted from the map; `none` is the nil
dereference of `popped.Value` when the list is empty. -/
def txCache.Push (cache : txCache) (tx : Tx) : Option (Bool × txCache) :=
  if tx ∈ cache.checkMap then some (false, cache)
  else if (List.length cache.list : Int) ≥ cache.size then
    match cache.list with
    | [] => none
    | poppedTx :: rest =>
      some (true, { cache with
        checkMap := insert tx (cache.checkMap.erase poppedTx)
        list := rest ++ [tx] })
  else
    some (true, { cache with
      checkMap := insert tx cache.checkMap
      list := cache.list ++ [tx] })

/-- `txCache.Remove`: deletes the key from the map only. -/
def txCache.Remove (cache : txCache) (tx : Tx) : txCache :=
  { cache with checkMap := cache.checkMap.erase tx }

/-! ## Coordinator -/

/-- `Mempool`: the coordinator state (the mutex is not modelled, execution is
sequential). -/
structure Mempool where
  config : Config
  txs : CList
  counter : Int
  height : Int
  cache : txCache
  wal : Option AutoFile
  txLimit : Int
  txFilters : List IFilter

/-- `Mempool.initWAL`: `opened` is what `EnsureDir` followed by `OpenAutoFile`
give for the configured directory, `none` when one of them fails (panic). -/
def initWAL (conf : Config) (opened : Option AutoFile) : Option (Option AutoFile) :=
  if conf.mempool_wal_dir ≠ "" then
    match opened with
    | none => none
    | some af => some (some af)
  else some none

/-- `NewMempool`. -/
def NewMempool (conf : Config) (opened : Option AutoFile) : Option Mempool :=
  match initWAL conf opened with
  | none => none
  | some wal =>
    some { config := conf, txs := [], counter := 0, height := 0,
           cache := newTxCache cacheSize, wal := wal,
           txLimit := wrapInt64 (conf.block_size * 2), txFilters := [] }

/-- `Mempool.RegisterFilter`. -/
def RegisterFilter (mem : Mempool) (filter : IFilter) : Mempool :=
  { mem with txFilters := mem.txFilters ++ [filter] }

/-- `Mempool.Size`. -/
def Size (mem : Mempool) : Int := CList.Len mem.txs

/-- The loop of `Mempool.checkTxWithFilters`: the first error ends it. -/
def checkTxLoop (tx : Tx) : List IFilter → Option GoError
  | [] => none
  | p :: ps =>
    match p.CheckTx tx with
    | some err => some err
    | none => checkTxLoop tx ps

/-- `Mempool.checkTxWithFilters`. -/
def checkTxWithFilters (mem : Mempool) (tx : Tx) : Option GoError :=
  if mem.txFilters.length = 0 then none
  else checkTxLoop tx mem.txFilters

/-- `Mempool.recheckTx`. -/
def recheckTx (mem : Mempool) (tx : Tx) : Option GoError :=
  checkTxWithFilters mem tx

/-- `Mempool._checkTx`. -/
def _checkTx (mem : Mempool) (tx : Tx) : Option GoError :=
  match checkTxWithFilters mem tx with
  | some err => some (GoError.New ("plugin checktx failed with error: " ++ err.Error))
  | none => none

/-- The two WAL writes of `ReceiveTx`: the bytes of tx, then the byte `0x0A`. -/
def walWrites (wal : Option AutoFile) (tx : Tx) : Option AutoFile :=
  match wal with
  | none => none
  | some af => some ((af.Write tx).Write [10])

/-- The capacity check of `ReceiveTx`, as a function of the state. -/
def overLimit (mem : Mempool) : Bool :=
  mem.config.mempool_enable_txs_limits && decide (CList.Len mem.txs > mem.txLimit)

/-- `Mempool.ReceiveTx`: the returned error (`none` is nil) and the state after
the call; `none` when the call panics. -/
def ReceiveTx (mem : Mempool) (tx : Tx) : Option (Option GoError × Mempool) :=
  if mem.cache.Exists tx then some (some GoError.ErrTxInCache, mem)
  else if mem.config.mempool_enable_txs_limits && decide (CList.Len mem.txs > mem.txLimit) then
    some (some (GoError.New "Too many unsolved TX (rejected)"), mem)
  else
    match checkTxWithFilters mem tx with
    | some err =>
      some (some (GoError.New ("plugin checktx failed with error: " ++ err.Error)), mem)
    | none =>
      let wal := walWrites mem.wal tx
      match mem.cache.Push tx with
      | none => none
      | some (false, cache) =>
        some (some GoError.ErrTxInCache, { mem with wal := wal, cache := cache })
      | some (true, cache) =>
        let nc := wrapInt64 (mem.counter + 1)
        let memTx : TxInPool := { Counter := nc, Height := mem.height, Tx := tx }
        some (none, { mem with wal := wal, cache := cache, counter := nc,
                               txs := CList.PushBack mem.txs memTx })

/-- The loop of `Mempool.collectTxs`, `e` being the head of the first argument. -/
def collectLoop : List TxInPool → Int → List Tx → List Tx
  | [], _, txs => txs
  | memTx :: rest, maxTxs, txs =>
    if (List.length txs : Int) < maxTxs then collectLoop rest maxTxs (txs ++ [memTx.Tx])
    else txs

/-- `Mempool.collectTxs`. -/
def collectTxs (mem : Mempool) (maxTxs : Int) : List Tx :=
  if maxTxs = 0 then []
  else
    let maxTxs := if maxTxs < 0 then CList.Len mem.txs else MinInt (CList.Len mem.txs) maxTxs
    collectLoop mem.txs maxTxs []

/-- `Mempool.Reap`; the pool is not changed. -/
def Reap (mem : Mempool) (maxTxs : Int) : List Tx :=
  collectTxs mem maxTxs

/-- The loop of `Mempool.refreshMempoolTxs` from the cursor on: the second list
argument is the part of the pool from `e` to the tail.  The result is what stays
of that part, and the cache. -/
def refreshLoop (mem : Mempool) (blockTxsMap : Finset Tx) (txsLen : Int) :
    Int → List TxInPool → txCache → List TxInPool × txCache
  | _, [], cache => ([], cache)
  | index, memTx :: rest, cache =>
    if index < txsLen then
      if memTx.Tx ∈ blockTxsMap then
        refreshLoop mem blockTxsMap txsLen (index + 1) rest (cache.Remove memTx.Tx)
      else
        match recheckTx mem memTx.Tx with
        | some _ =>
          refreshLoop mem blockTxsMap txsLen (index + 1) rest (cache.Remove memTx.Tx)
        | none =>
          let r := refreshLoop mem blockTxsMap txsLen (index + 1) rest cache
          (memTx :: r.1, r.2)
    else (memTx :: rest, cache)

/-- `Mempool.refreshMempoolTxs`. -/
def refreshMempoolTxs (mem : Mempool) (blockTxsMap : Finset Tx) : Mempool :=
  let r := refreshLoop mem blockTxsMap (CList.Len mem.txs) 0 mem.txs mem.cache
  { mem with txs := r.1, cache := r.2 }

/-- The lookup map built at the start of `Mempool.Update`. -/
def buildTxsMap (txs : List Tx) : Finset Tx :=
  txs.foldl (fun m tx => insert tx m) ∅

/-- `Mempool.Update`. -/
def Update (mem : Mempool) (height : Int) (txs : List Tx) : Mempool :=
  let txsMap := buildTxsMap txs
  refreshMempoolTxs { mem with height := height } txsMap

/-- The loop of `Mempool.Flush` from the cursor on: every element met is removed;
the result is what stays of the pool. -/
def flushLoop : List TxInPool → List TxInPool
  | [] => []
  | _ :: rest => flushLoop rest

/-- `Mempool.Flush`. -/
def Flush (mem : Mempool) : Mempool :=
  { mem with cache := mem.cache.Reset, txs := flushLoop mem.txs }

/-! ## Sequences of calls -/

/-- One call on the seen-cache. -/
inductive CacheOp where
  | Push (tx : Tx) : CacheOp
  | Remove (tx : Tx) : CacheOp
  | Reset : CacheOp
  deriving DecidableEq, Repr

/-- The cache after one call; `none` when the call panics. -/
def txCache.step (cache : txCache) : CacheOp → Option txCache
  | .Push tx => (cache.Push tx).map Prod.snd
  | .Remove tx => some (cache.Remove tx)
  | .Reset => some cache.Reset

/-- The cache after a sequence of calls, made one after the other. -/
def txCache.run (cache : txCache) : List CacheOp → Option txCache
  | [] => some cache
  | op :: ops =>
    match cache.step op with
    | none => none
    | some c => c.run ops

/-- One call on the mempool. -/
inductive Op where
  | ReceiveTx (tx : Tx) : Op
  | Reap (maxTxs : Int) : Op
  | Update (height : Int) (txs : List Tx) : Op
  | Flush : Op
  | RegisterFilter (filter : IFilter) : Op

/-- What a call on the mempool returns. -/
inductive Ret where
  | err (e : Option GoError) : Ret
  | txs (l : List Tx) : Ret
  | unit : Ret
  deriving DecidableEq, Repr

/-- One call on the mempool: what it returns and the state after it; `none` when
the call panics. -/
def step (mem : Mempool) : Op → Option (Ret × Mempool)
  | .ReceiveTx tx => (ReceiveTx mem tx).map (fun r => (Ret.err r.1, r.2))
  | .Reap maxTxs => some (Ret.txs (Reap mem maxTxs), mem)
  | .Update height txs => some (Ret.unit, Update mem height txs)
  | .Flush => some (Ret.unit, Flush mem)
  | .RegisterFilter filter => some (Ret.unit, RegisterFilter mem filter)

/-- A sequence of calls on the mempool, made one after the other. -/
def run (mem : Mempool) : List Op → Option (List Ret × Mempool)
  | [] => some ([], mem)
  | op :: ops =>
    match step mem op with
    | none => none
    | some (r, mem1) =>
      match run mem1 ops with
      | none => none
      | some (rs, mem2) => some (r :: rs, mem2)

/-- The values returned by a sequence of calls on a freshly created mempool. -/
def exec (conf : Config) (opened : Option AutoFile) (ops : List Op) : Option (List Ret) :=
  match NewMempool conf opened with
  | none => none
  | some mem => (run mem ops).map Prod.fst

/-- A mempool as `NewMempool` makes it for `block_size = 1` with the limit on and no
WAL, used to instantiate the theorems. -/
def sampleMem : Mempool :=
  { config := { block_size := 1, mempool_enable_txs_limits := true, mempool_wal_dir := "" },
    txs := [], counter := 0, height := 0, cache := newTxCache cacheSize, wal := none,
    txLimit := 2, txFilters := [] }

/-- The configuration of `sampleMem`. -/
def sampleConf : Config :=
  { block_size := 1, mempool_enable_txs_limits := true, mempool_wal_dir := "" }

/-- A filter that rejects every tx with the error `errors.New "bad"`. -/
def rejectAll : IFilter :=
  { CheckTx := fun _ => some (GoError.New "bad") }

/-- A filter that accepts every tx. -/
def acceptAll : IFilter :=
  { CheckTx := fun _ => none }

/-- The mempool `sampleMem` after `RegisterFilter rejectAll`. -/
def rejectMem : Mempool := RegisterFilter sampleMem rejectAll

/-- The number of calls of `ReceiveTx` that returned nil, among the returned values of
a sequence of calls. -/
def successes (rs : List Ret) : Nat :=
  rs.count (Ret.err none)

/-- The number of pool entries that a call removes in the state `mem`: `Update` removes
the entries whose tx is in the block or fails the recheck, `Flush` removes every entry;
the other calls remove none. -/
def removedBy (mem : Mempool) : Op → Nat
  | .Update _ txs =>
    (mem.txs.filter (fun e => decide (e.Tx ∈ txs) || (recheckTx mem e.Tx).isSome)).length
  | .Flush => mem.txs.length
  | _ => 0

/-- The number of pool entries removed over a sequence of calls that starts in `mem`. -/
def totalRemoved (mem : Mempool) : List Op → Nat
  | [] => 0
  | op :: ops =>
    match step mem op with
    | none => 0
    | some (_, mem1) => removedBy mem op + totalRemoved mem1 ops

/-- The txs of the `ReceiveTx` calls that returned nil, in the order of the calls. -/
def admitted : List Op → List Ret → List Tx
  | Op.ReceiveTx tx :: ops, Ret.err none :: rs => tx :: admitted ops rs
  | _ :: ops, _ :: rs => admitted ops rs
  | _, _ => []

/-- The WAL records of a list of txs: each tx followed by the byte `0x0A`. -/
def walRecords : List Tx → List Byte
  | [] => []
  | tx :: rest => tx ++ [10] ++ walRecords rest

/-- The number of `ReceiveTx` calls that returned nil since the creation (counted from
`k`) or, if there is one, since the last `Flush`. -/
def admitsSinceFlush : Nat → List Op → List Ret → Nat
  | _, Op.Flush :: ops, _ :: rs => admitsSinceFlush 0 ops rs
  | k, Op.ReceiveTx _ :: ops, Ret.err none :: rs => admitsSinceFlush (k + 1) ops rs
  | k, _ :: ops, _ :: rs => admitsSinceFlush k ops rs
  | k, _, _ => k

/-- The mempool `sampleMem` with a WAL whose file holds `log`. -/
def walMem (log : List Byte) : Mempool :=
  { sampleMem with wal := some { log := log } }

/-! ## Helper lemmas -/

theorem mem_buildTxsMap_aux (txs : List Tx) (m : Finset Tx) (tx : Tx) :
    tx ∈ txs.foldl (fun m tx => insert tx m) m ↔ tx ∈ m ∨ tx ∈ txs := by
  induction txs generalizing m with
  | nil => simp
  | cons a t ih =>
    simp only [List.foldl_cons, List.mem_cons]
    rw [ih, Finset.mem_insert]
    tauto

theorem mem_buildTxsMap (txs : List Tx) (tx : Tx) : tx ∈ buildTxsMap txs ↔ tx ∈ txs := by
  unfold buildTxsMap
  rw [mem_buildTxsMap_aux]
  simp

/-- When the bound `txsLen` covers the rest of the pool, the sweep keeps exactly the
entries that are not in the block and pass the recheck. -/
theorem refreshLoop_fst (mem : Mempool) (S : Finset Tx) (txsLen : Int) (rest : List TxInPool) :
    ∀ (index : Int) (cache : txCache), index + (List.length rest : Int) ≤ txsLen →
      (refreshLoop mem S txsLen index rest cache).1 =
        rest.filter (fun e => decide (e.Tx ∉ S) && (recheckTx mem e.Tx).isNone) := by
  induction rest with
  | nil => intro index cache _; simp [refreshLoop]
  | cons e rest ih =>
    intro index cache h
    have hlt : index < txsLen := by
      simp only [List.length_cons, Nat.cast_add, Nat.cast_one] at h
      omega
    have hnext : index + 1 + (List.length rest : Int) ≤ txsLen := by
      simp only [List.length_cons, Nat.cast_add, Nat.cast_one] at h
      omega
    unfold refreshLoop
    rw [if_pos hlt]
    by_cases hS : e.Tx ∈ S
    · rw [if_pos hS, ih _ _ hnext]
      simp [List.filter_cons, hS]
    · rw [if_neg hS]
      cases hr : recheckTx mem e.Tx with
      | some err =>
        simp only []
        rw [ih _ _ hnext]
        simp [List.filter_cons, hS, hr]
      | none =>
        simp only []
        rw [ih _ _ hnext]
        simp [List.filter_cons, hS, hr]

theorem Update_txs (mem : Mempool) (height : Int) (T : List Tx) :
    (Update mem height T).txs =
      mem.txs.filter (fun e => decide (e.Tx ∉ T) &&
        (recheckTx mem e.Tx).isNone) := by
  unfold Update refreshMempoolTxs
  simp only []
  rw [refreshLoop_fst]
  · apply List.filter_congr
    intro e _
    simp [mem_buildTxsMap, recheckTx, checkTxWithFilters]
  · simp [CList.Len]

theorem collectLoop_eq (l : List TxInPool) (maxTxs : Int) :
    ∀ acc : List Tx, collectLoop l maxTxs acc =
      acc ++ (l.map (fun e => e.Tx)).take (maxTxs - (List.length acc : Int)).toNat := by
  induction l with
  | nil => intro acc; simp [collectLoop]
  | cons e rest ih =>
    intro acc
    unfold collectLoop
    by_cases h : (List.length acc : Int) < maxTxs
    · rw [if_pos h, ih]
      have h1 : (maxTxs - (List.length acc : Int)).toNat =
          (maxTxs - ((List.length (acc ++ [e.Tx]) : Nat) : Int)).toNat + 1 := by
        simp only [List.length_append, List.length_singleton, Nat.cast_add, Nat.cast_one]
        omega
      rw [h1]
      simp [List.take_succ_cons]
    · rw [if_neg h]
      have h0 : (maxTxs - (List.length acc : Int)).toNat = 0 := by omega
      rw [h0]
      simp

theorem flushLoop_eq (l : List TxInPool) : flushLoop l = [] := by
  induction l with
  | nil => rfl
  | cons e rest ih => simpa [flushLoop] using ih

theorem checkTxLoop_none_iff (tx : Tx) (fs : List IFilter) :
    checkTxLoop tx fs = none ↔ ∀ f ∈ fs, f.CheckTx tx = none := by
  induction fs with
  | nil => simp [checkTxLoop]
  | cons p ps ih =>
    unfold checkTxLoop
    cases hp : p.CheckTx tx with
    | some err => simp [hp]
    | none => simp [hp, ih]

theorem checkTxWithFilters_none_iff (mem : Mempool) (tx : Tx) :
    checkTxWithFilters mem tx = none ↔ ∀ f ∈ mem.txFilters, f.CheckTx tx = none := by
  unfold checkTxWithFilters
  split
  · rename_i h
    have : mem.txFilters = [] := List.length_eq_zero.mp h
    simp [this]
  · exact checkTxLoop_none_iff tx mem.txFilters

/-- A push of an absent tx succeeds as soon as the list is not empty or the capacity
is positive; it keeps the capacity, and the tx is in the map afterwards. -/
theorem Push_absent (cache : txCache) (tx : Tx) (habs : tx ∉ cache.checkMap)
    (hne : cache.list ≠ [] ∨ 0 < cache.size) :
    ∃ c, cache.Push tx = some (true, c) ∧ c.size = cache.size ∧ tx ∈ c.checkMap ∧
      c.list ≠ [] := by
  unfold txCache.Push
  rw [if_neg habs]
  by_cases hfull : (List.length cache.list : Int) ≥ cache.size
  · rw [if_pos hfull]
    cases hl : cache.list with
    | nil =>
      exfalso
      rcases hne with h | h
      · exact h hl
      · rw [hl] at hfull
        simp at hfull
        omega
    | cons p rest =>
      exact ⟨_, rfl, rfl, Finset.mem_insert_self _ _, by simp⟩
  · rw [if_neg hfull]
    exact ⟨_, rfl, rfl, Finset.mem_insert_self _ _, by simp⟩

theorem Push_present (cache : txCache) (tx : Tx) (h : tx ∈ cache.checkMap) :
    cache.Push tx = some (false, cache) := by
  unfold txCache.Push
  rw [if_pos h]

/-- A push that returns true was made for an absent tx and leaves it in the map. -/
theorem Push_true_inv (cache c : txCache) (tx : Tx) (h : cache.Push tx = some (true, c)) :
    tx ∉ cache.checkMap ∧ tx ∈ c.checkMap ∧ c.size = cache.size ∧ c.list ≠ [] := by
  by_cases hin : tx ∈ cache.checkMap
  · rw [Push_present cache tx hin] at h
    simp at h
  · refine ⟨hin, ?_⟩
    unfold txCache.Push at h
    rw [if_neg hin] at h
    split at h
    · split at h
      · simp at h
      · simp only [Option.some.injEq, Prod.mk.injEq, true_and] at h
        subst h
        exact ⟨Finset.mem_insert_self _ _, rfl, by simp⟩
    · simp only [Option.some.injEq, Prod.mk.injEq, true_and] at h
      subst h
      exact ⟨Finset.mem_insert_self _ _, rfl, by simp⟩

theorem ReceiveTx_of_exists (mem : Mempool) (tx : Tx) (h : mem.cache.Exists tx = true) :
    ReceiveTx mem tx = some (some GoError.ErrTxInCache, mem) := by
  unfold ReceiveTx
  rw [if_pos h]

theorem ReceiveTx_of_limit (mem : Mempool) (tx : Tx) (h : mem.cache.Exists tx = false)
    (hl : overLimit mem = true) :
    ReceiveTx mem tx = some (some (GoError.New "Too many unsolved TX (rejected)"), mem) := by
  unfold ReceiveTx
  unfold overLimit at hl
  rw [if_neg (by simp [h]), if_pos hl]

theorem ReceiveTx_of_reject (mem : Mempool) (tx : Tx) (cause : GoError)
    (h : mem.cache.Exists tx = false) (hl : overLimit mem = false)
    (hf : checkTxWithFilters mem tx = some cause) :
    ReceiveTx mem tx =
      some (some (GoError.New ("plugin checktx failed with error: " ++ cause.Error)), mem) := by
  unfold ReceiveTx
  unfold overLimit at hl
  rw [if_neg (by simp [h]), if_neg (by simp [hl]), hf]

theorem ReceiveTx_of_pass (mem : Mempool) (tx : Tx) (c : txCache)
    (h : mem.cache.Exists tx = false) (hl : overLimit mem = false)
    (hf : checkTxWithFilters mem tx = none) (hp : mem.cache.Push tx = some (true, c)) :
    ReceiveTx mem tx =
      some (none, { mem with
        wal := walWrites mem.wal tx, cache := c, counter := wrapInt64 (mem.counter + 1),
        txs := CList.PushBack mem.txs
          { Counter := wrapInt64 (mem.counter + 1), Height := mem.height, Tx := tx } }) := by
  unfold ReceiveTx
  unfold overLimit at hl
  rw [if_neg (by simp [h]), if_neg (by simp [hl]), hf]
  simp only [hp]

/-- What a successful `ReceiveTx` found and did. -/
theorem ReceiveTx_nil_inv (mem mem1 : Mempool) (tx : Tx)
    (h : ReceiveTx mem tx = some (none, mem1)) :
    mem.cache.Exists tx = false ∧ overLimit mem = false ∧ checkTxWithFilters mem tx = none ∧
    ∃ c, mem.cache.Push tx = some (true, c) ∧
      mem1 = { mem with
        wal := walWrites mem.wal tx, cache := c, counter := wrapInt64 (mem.counter + 1),
        txs := CList.PushBack mem.txs
          { Counter := wrapInt64 (mem.counter + 1), Height := mem.height, Tx := tx } } := by
  cases he : mem.cache.Exists tx with
  | true => rw [ReceiveTx_of_exists mem tx he] at h; simp at h
  | false =>
    cases hl : overLimit mem with
    | true => rw [ReceiveTx_of_limit mem tx he hl] at h; simp at h
    | false =>
      cases hf : checkTxWithFilters mem tx with
      | some cause => rw [ReceiveTx_of_reject mem tx cause he hl hf] at h; simp at h
      | none =>
        refine ⟨rfl, rfl, rfl, ?_⟩
        have habs : tx ∉ mem.cache.checkMap := by
          simpa [txCache.Exists] using he
        unfold ReceiveTx at h
        unfold overLimit at hl
        rw [if_neg (by simp [he]), if_neg (by simp [hl]), hf] at h
        simp only [] at h
        cases hp : mem.cache.Push tx with
        | none => rw [hp] at h; simp at h
        | some r =>
          obtain ⟨b, c⟩ := r
          cases b with
          | false => rw [hp] at h; simp at h
          | true =>
            rw [hp] at h
            simp only [Option.some.injEq, Prod.mk.injEq, true_and] at h
            exact ⟨c, rfl, h.symm⟩

/-- A tx that passes the three checks is admitted when the cache can take it. -/
theorem ReceiveTx_admits (mem : Mempool) (tx : Tx)
    (h : mem.cache.Exists tx = false) (hl : overLimit mem = false)
    (hf : checkTxWithFilters mem tx = none)
    (hne : mem.cache.list ≠ [] ∨ 0 < mem.cache.size) :
    ∃ mem1, ReceiveTx mem tx = some (none, mem1) := by
  have habs : tx ∉ mem.cache.checkMap := by simpa [txCache.Exists] using h
  obtain ⟨c, hc, _⟩ := Push_absent mem.cache tx habs hne
  exact ⟨_, ReceiveTx_of_pass mem tx c h hl hf hc⟩

theorem ReceiveTx_sampleMem : ∃ mem1, ReceiveTx sampleMem [1] = some (none, mem1) :=
  ReceiveTx_admits sampleMem [1] (by decide) (by decide) (by decide) (Or.inr (by decide))

/-- The cache after the sweep, when the bound `txsLen` covers the rest of the pool:
capacity and list are untouched, and a key stays exactly when it was there and no
entry carrying it was removed. -/
theorem refreshLoop_snd (mem : Mempool) (S : Finset Tx) (txsLen : Int) (rest : List TxInPool) :
    ∀ (index : Int) (cache : txCache), index + (List.length rest : Int) ≤ txsLen →
      (refreshLoop mem S txsLen index rest cache).2.size = cache.size ∧
      (refreshLoop mem S txsLen index rest cache).2.list = cache.list ∧
      ∀ t, t ∈ (refreshLoop mem S txsLen index rest cache).2.checkMap ↔
        t ∈ cache.checkMap ∧ ∀ e ∈ rest, e.Tx = t → e.Tx ∉ S ∧ recheckTx mem e.Tx = none := by
  induction rest with
  | nil => intro index cache _; simp [refreshLoop]
  | cons e rest ih =>
    intro index cache h
    have hlt : index < txsLen := by
      simp only [List.length_cons, Nat.cast_add, Nat.cast_one] at h
      omega
    have hnext : index + 1 + (List.length rest : Int) ≤ txsLen := by
      simp only [List.length_cons, Nat.cast_add, Nat.cast_one] at h
      omega
    have hrem : ∀ cache : txCache, (e.Tx ∈ S ∨ recheckTx mem e.Tx ≠ none) →
        (refreshLoop mem S txsLen (index + 1) rest (cache.Remove e.Tx)).2.size = cache.size ∧
        (refreshLoop mem S txsLen (index + 1) rest (cache.Remove e.Tx)).2.list = cache.list ∧
        ∀ t, t ∈ (refreshLoop mem S txsLen (index + 1) rest (cache.Remove e.Tx)).2.checkMap ↔
          t ∈ cache.checkMap ∧
            ∀ e1 ∈ e :: rest, e1.Tx = t → e1.Tx ∉ S ∧ recheckTx mem e1.Tx = none := by
      intro cache hbad
      obtain ⟨h1, h2, h3⟩ := ih (index + 1) (cache.Remove e.Tx) hnext
      refine ⟨h1, h2, ?_⟩
      intro t
      rw [h3]
      simp only [txCache.Remove, Finset.mem_erase, List.mem_cons, forall_eq_or_imp]
      constructor
      · rintro ⟨⟨hne, hin⟩, hall⟩
        exact ⟨hin, fun heq => absurd heq.symm hne, hall⟩
      · rintro ⟨hin, he, hall⟩
        refine ⟨⟨?_, hin⟩, hall⟩
        intro heq
        obtain ⟨hS, hr⟩ := he heq.symm
        rcases hbad with hb | hb
        · exact hS hb
        · exact hb hr
    unfold refreshLoop
    rw [if_pos hlt]
    by_cases hS : e.Tx ∈ S
    · rw [if_pos hS]
      exact hrem cache (Or.inl hS)
    · rw [if_neg hS]
      cases hr : recheckTx mem e.Tx with
      | some err =>
        simp only []
        exact hrem cache (Or.inr (by simp [hr]))
      | none =>
        simp only []
        obtain ⟨h1, h2, h3⟩ := ih (index + 1) cache hnext
        refine ⟨h1, h2, ?_⟩
        intro t
        rw [h3]
        simp only [List.mem_cons, forall_eq_or_imp]
        constructor
        · rintro ⟨hin, hall⟩
          exact ⟨hin, fun _ => ⟨hS, hr⟩, hall⟩
        · rintro ⟨hin, _, hall⟩
          exact ⟨hin, hall⟩

/-- The cache after `Update`. -/
theorem Update_cache (mem : Mempool) (height : Int) (T : List Tx) :
    (Update mem height T).cache.size = mem.cache.size ∧
    (Update mem height T).cache.list = mem.cache.list ∧
    ∀ t, t ∈ (Update mem height T).cache.checkMap ↔
      t ∈ mem.cache.checkMap ∧
        ∀ e ∈ mem.txs, e.Tx = t → e.Tx ∉ T ∧ recheckTx mem e.Tx = none := by
  have h := refreshLoop_snd { mem with height := height } (buildTxsMap T)
    (CList.Len mem.txs) mem.txs 0 mem.cache (by simp [CList.Len])
  simpa [Update, refreshMempoolTxs, mem_buildTxsMap, recheckTx, checkTxWithFilters] using h

/-- Pushing pairwise distinct txs, none of them in the list yet, into a cache whose map
is the set of its list: the list stays the tail of what was pushed, of length the
smaller of the capacity and the number of txs pushed. -/
theorem run_push_window (C : Int) (hC : 1 ≤ C) (xs : List Tx) :
    ∀ (cache : txCache) (old : List Tx), cache.size = C →
      cache.checkMap = cache.list.toFinset → (old ++ cache.list ++ xs).Nodup →
      (List.length cache.list : Int) = min (List.length (old ++ cache.list) : Int) C →
      ∃ c old1, cache.run (xs.map CacheOp.Push) = some c ∧ c.size = C ∧
        c.checkMap = c.list.toFinset ∧ old ++ cache.list ++ xs = old1 ++ c.list ∧
        (List.length c.list : Int) = min (List.length (old ++ cache.list ++ xs) : Int) C := by
  induction xs with
  | nil =>
    intro cache old hs hm _ hlen
    exact ⟨cache, old, rfl, hs, hm, by simp, by simpa using hlen⟩
  | cons x xs ih =>
    intro cache old hs hm hnd hlen
    have hx : x ∉ cache.list := by
      intro hin
      rw [List.nodup_append] at hnd
      exact hnd.2.2 (List.mem_append_right _ hin) (List.mem_cons_self _ _)
    have hxm : x ∉ cache.checkMap := by rw [hm]; simpa using hx
    simp only [List.map_cons, txCache.run, txCache.step, txCache.Push, if_neg hxm]
    by_cases hfull : (List.length cache.list : Int) ≥ cache.size
    · rw [if_pos hfull]
      cases hl : cache.list with
      | nil =>
        rw [hl, hs] at hfull
        simp at hfull
        omega
      | cons p rest =>
        have hp : p ∉ rest := by
          rw [hl] at hnd
          have h1 : (p :: rest).Nodup :=
            (List.nodup_append.mp (List.nodup_append.mp hnd).1).2.1
          exact (List.nodup_cons.mp h1).1
        simp only [Option.map_some']
        have hlen1 : (List.length rest : Int) + 1 = C := by
          rw [hl, hs] at hfull
          rw [hl] at hlen
          simp only [List.length_cons, Nat.cast_add, Nat.cast_one] at hfull hlen
          omega
        obtain ⟨c, old1, hrun, h1, h2, h3, h4⟩ := ih
          { cache with checkMap := insert x (cache.checkMap.erase p), list := rest ++ [x] }
          (old ++ [p]) hs
          (by
            simp only [hm, hl]
            ext t
            simp only [Finset.mem_insert, Finset.mem_erase, List.mem_toFinset, List.mem_cons,
              List.mem_append, List.not_mem_nil, or_false]
            constructor
            · rintro (h | ⟨hne, h | h⟩)
              · exact Or.inr h
              · exact absurd h hne
              · exact Or.inl h
            · rintro (h | h)
              · exact Or.inr ⟨fun heq => hp (heq ▸ h), Or.inr h⟩
              · exact Or.inl h)
          (by
            rw [hl] at hnd
            simpa [List.append_assoc] using hnd)
          (by
            simp only [List.length_append, List.length_singleton, Nat.cast_add, Nat.cast_one]
            omega)
        refine ⟨c, old1, hrun, h1, h2, ?_, ?_⟩
        · rw [← h3]; simp [List.append_assoc]
        · rw [h4]
          simp only [List.length_append, List.length_singleton, List.length_cons, Nat.cast_add,
            Nat.cast_one]
          omega
    · rw [if_neg hfull]
      simp only [Option.map_some']
      have hold : (List.length cache.list : Int) = (List.length (old ++ cache.list) : Int) := by
        rw [hs] at hfull
        omega
      obtain ⟨c, old1, hrun, h1, h2, h3, h4⟩ := ih
        { cache with checkMap := insert x cache.checkMap, list := cache.list ++ [x] }
        old hs
        (by
          simp only [hm]
          ext t
          simp only [Finset.mem_insert, List.mem_toFinset, List.mem_append, List.mem_singleton]
          tauto)
        (by simpa [List.append_assoc] using hnd)
        (by
          rw [hs] at hfull
          simp only [List.length_append, List.length_singleton, Nat.cast_add, Nat.cast_one]
            at hold ⊢
          omega)
      refine ⟨c, old1, hrun, h1, h2, ?_, ?_⟩
      · rw [← h3]; simp [List.append_assoc]
      · rw [h4]
        simp only [List.length_append, List.length_singleton, List.length_cons, List.length_nil,
          Nat.cast_add, Nat.cast_one, Nat.cast_zero]
        ring_nf

/-- One call keeps the cache within its capacity and its map inside its list, and does
not panic. -/
theorem step_bounded (C : Int) (hC : 1 ≤ C) (cache : txCache) (op : CacheOp)
    (hs : cache.size = C) (hlen : (List.length cache.list : Int) ≤ C)
    (hsub : ∀ tx ∈ cache.checkMap, tx ∈ cache.list) :
    ∃ c, cache.step op = some c ∧ c.size = C ∧ (List.length c.list : Int) ≤ C ∧
      ∀ tx ∈ c.checkMap, tx ∈ c.list := by
  cases op with
  | Reset => exact ⟨_, rfl, hs, by simp [txCache.Reset]; omega, by simp [txCache.Reset]⟩
  | Remove t =>
    refine ⟨_, rfl, hs, hlen, ?_⟩
    intro tx htx
    simp only [txCache.Remove, Finset.mem_erase] at htx
    exact hsub tx htx.2
  | Push t =>
    simp only [txCache.step, txCache.Push]
    by_cases hin : t ∈ cache.checkMap
    · rw [if_pos hin]
      exact ⟨_, rfl, hs, hlen, hsub⟩
    · rw [if_neg hin]
      by_cases hfull : (List.length cache.list : Int) ≥ cache.size
      · rw [if_pos hfull]
        cases hl : cache.list with
        | nil =>
          rw [hl, hs] at hfull
          simp at hfull
          omega
        | cons p rest =>
          refine ⟨_, rfl, hs, ?_, ?_⟩
          · rw [hl] at hlen
            simpa using hlen
          · intro tx htx
            simp only [Finset.mem_insert, Finset.mem_erase] at htx
            simp only [List.mem_append, List.mem_singleton]
            rcases htx with h | ⟨hne, h⟩
            · exact Or.inr h
            · have := hsub tx h
              rw [hl, List.mem_cons] at this
              rcases this with h1 | h1
              · exact absurd h1 hne
              · exact Or.inl h1
      · rw [if_neg hfull]
        refine ⟨_, rfl, hs, ?_, ?_⟩
        · rw [hs] at hfull
          simp only [List.length_append, List.length_singleton, Nat.cast_add, Nat.cast_one]
          omega
        · intro tx htx
          simp only [Finset.mem_insert] at htx
          simp only [List.mem_append, List.mem_singleton]
          rcases htx with h | h
          · exact Or.inr h
          · exact Or.inl (hsub tx h)

theorem run_bounded (C : Int) (hC : 1 ≤ C) (ops : List CacheOp) :
    ∀ cache : txCache, cache.size = C → (List.length cache.list : Int) ≤ C →
      (∀ tx ∈ cache.checkMap, tx ∈ cache.list) →
      ∃ c, cache.run ops = some c ∧ c.size = C ∧ (List.length c.list : Int) ≤ C ∧
        ∀ tx ∈ c.checkMap, tx ∈ c.list := by
  induction ops with
  | nil => intro cache hs hlen hsub; exact ⟨cache, rfl, hs, hlen, hsub⟩
  | cons op ops ih =>
    intro cache hs hlen hsub
    obtain ⟨c1, h1, hs1, hlen1, hsub1⟩ := step_bounded C hC cache op hs hlen hsub
    obtain ⟨c, h2, hs2, hlen2, hsub2⟩ := ih c1 hs1 hlen1 hsub1
    exact ⟨c, by simp only [txCache.run, h1, h2], hs2, hlen2, hsub2⟩

/-- The loop over the filters returns the error of the first filter that rejects. -/
theorem checkTxLoop_first (tx : Tx) (pre : List IFilter) (f : IFilter) (post : List IFilter)
    (err : GoError) (hpre : ∀ g ∈ pre, g.CheckTx tx = none) (hf : f.CheckTx tx = some err) :
    checkTxLoop tx (pre ++ f :: post) = some err := by
  induction pre with
  | nil => simp [checkTxLoop, hf]
  | cons g gs ih =>
    have hg : g.CheckTx tx = none := hpre g (List.mem_cons_self _ _)
    simp only [List.cons_append, checkTxLoop, hg]
    exact ih (fun k hk => hpre k (List.mem_cons_of_mem _ hk))

/-- `Push` never returns false for a tx that is not in the map. -/
theorem Push_absent_not_false (cache c : txCache) (tx : Tx) (habs : tx ∉ cache.checkMap) :
    cache.Push tx ≠ some (false, c) := by
  unfold txCache.Push
  rw [if_neg habs]
  split
  · split <;> simp
  · simp

/-- A `ReceiveTx` that returns an error leaves the whole state as it was. -/
theorem ReceiveTx_err_inv (mem mem1 : Mempool) (tx : Tx) (e : GoError)
    (h : ReceiveTx mem tx = some (some e, mem1)) : mem1 = mem := by
  cases he : mem.cache.Exists tx with
  | true =>
    rw [ReceiveTx_of_exists mem tx he] at h
    simp only [Option.some.injEq, Prod.mk.injEq] at h
    exact h.2.symm
  | false =>
    cases hl : overLimit mem with
    | true =>
      rw [ReceiveTx_of_limit mem tx he hl] at h
      simp only [Option.some.injEq, Prod.mk.injEq] at h
      exact h.2.symm
    | false =>
      cases hf : checkTxWithFilters mem tx with
      | some cause =>
        rw [ReceiveTx_of_reject mem tx cause he hl hf] at h
        simp only [Option.some.injEq, Prod.mk.injEq] at h
        exact h.2.symm
      | none =>
        exfalso
        have habs : tx ∉ mem.cache.checkMap := by simpa [txCache.Exists] using he
        cases hp : mem.cache.Push tx with
        | none =>
          unfold ReceiveTx at h
          unfold overLimit at hl
          rw [if_neg (by simp [he]), if_neg (by simp [hl]), hf] at h
          simp [hp] at h
        | some r =>
          obtain ⟨b, c⟩ := r
          cases b with
          | false => exact Push_absent_not_false mem.cache c tx habs hp
          | true =>
            rw [ReceiveTx_of_pass mem tx c he hl hf hp] at h
            simp at h

theorem overLimit_false_iff (mem : Mempool) :
    overLimit mem = false ↔
      ¬ (mem.config.mempool_enable_txs_limits = true ∧ Size mem > mem.txLimit) := by
  cases h : overLimit mem with
  | true =>
    simp only [overLimit, Bool.and_eq_true, decide_eq_true_eq] at h
    simp [Size, h.1, h.2]
  | false =>
    simp only [overLimit, Bool.and_eq_false_imp, decide_eq_false_iff_not] at h
    simp only [true_iff, Size, not_and]
    exact h

/-- Every tx that `Reap` returns is the tx of an entry of the pool. -/
theorem Reap_subset (mem : Mempool) (n : Int) (tx : Tx) (h : tx ∈ Reap mem n) :
    ∃ e ∈ mem.txs, e.Tx = tx := by
  unfold Reap collectTxs at h
  split at h
  · simp at h
  · simp only [] at h
    rw [collectLoop_eq] at h
    simp only [List.nil_append] at h
    have := List.mem_of_mem_take h
    rw [List.mem_map] at this
    exact this

theorem wrapInt64_of_range (x : Int) (h1 : -2 ^ 63 ≤ x) (h2 : x ≤ 2 ^ 63 - 1) :
    wrapInt64 x = x := by
  unfold wrapInt64
  omega

theorem run_cons_inv (mem mem2 : Mempool) (op : Op) (ops : List Op) (rs : List Ret)
    (h : run mem (op :: ops) = some (rs, mem2)) :
    ∃ r mem1 rs1, step mem op = some (r, mem1) ∧ run mem1 ops = some (rs1, mem2) ∧
      rs = r :: rs1 := by
  unfold run at h
  cases h1 : step mem op with
  | none => rw [h1] at h; simp at h
  | some p =>
    obtain ⟨r, mem1⟩ := p
    rw [h1] at h
    simp only [] at h
    cases h2 : run mem1 ops with
    | none => rw [h2] at h; simp at h
    | some q =>
      obtain ⟨rs1, m2⟩ := q
      rw [h2] at h
      simp only [Option.some.injEq, Prod.mk.injEq] at h
      obtain ⟨h3, h4⟩ := h
      subst h4
      exact ⟨r, mem1, rs1, rfl, h2, h3.symm⟩

/-- What one call gives: `ReceiveTx` either admits the tx (nil, one entry more at the
tail, the tx pushed into the cache) or returns an error and changes nothing. -/
theorem step_ReceiveTx_inv (mem mem1 : Mempool) (tx : Tx) (r : Ret)
    (h : step mem (Op.ReceiveTx tx) = some (r, mem1)) :
    (r = Ret.err none ∧ ReceiveTx mem tx = some (none, mem1)) ∨
    (∃ e, r = Ret.err (some e) ∧ mem1 = mem) := by
  simp only [step, Option.map_eq_some', Prod.mk.injEq] at h
  obtain ⟨⟨err, m⟩, hr, h1, h2⟩ := h
  simp only [] at h1 h2
  subst h1 h2
  cases err with
  | none => exact Or.inl ⟨rfl, hr⟩
  | some e => exact Or.inr ⟨e, rfl, ReceiveTx_err_inv mem m tx e hr⟩

/-- No call panics in a state whose cache has a positive capacity, and no call changes
the capacity. -/
theorem step_total (mem : Mempool) (op : Op) (hsize : 0 < mem.cache.size) :
    ∃ r mem1, step mem op = some (r, mem1) ∧ mem1.cache.size = mem.cache.size := by
  cases op with
  | Reap n => exact ⟨_, _, rfl, rfl⟩
  | Update h T => exact ⟨_, _, rfl, (Update_cache mem h T).1⟩
  | Flush => exact ⟨_, _, rfl, rfl⟩
  | RegisterFilter f => exact ⟨_, _, rfl, rfl⟩
  | ReceiveTx tx =>
    cases he : mem.cache.Exists tx with
    | true =>
      exact ⟨_, _, by simp only [step, ReceiveTx_of_exists mem tx he, Option.map_some']; rfl, rfl⟩
    | false =>
      cases hl : overLimit mem with
      | true =>
        exact ⟨_, _, by
          simp only [step, ReceiveTx_of_limit mem tx he hl, Option.map_some']; rfl, rfl⟩
      | false =>
        cases hf : checkTxWithFilters mem tx with
        | some cause =>
          exact ⟨_, _, by
            simp only [step, ReceiveTx_of_reject mem tx cause he hl hf, Option.map_some']; rfl,
            rfl⟩
        | none =>
          have habs : tx ∉ mem.cache.checkMap := by simpa [txCache.Exists] using he
          obtain ⟨c, hc, hs, _⟩ := Push_absent mem.cache tx habs (Or.inr hsize)
          exact ⟨_, _, by
            simp only [step, ReceiveTx_of_pass mem tx c he hl hf hc, Option.map_some']; rfl, hs⟩

theorem run_total (ops : List Op) :
    ∀ mem : Mempool, 0 < mem.cache.size → ∃ rs mem1, run mem ops = some (rs, mem1) := by
  induction ops with
  | nil => intro mem _; exact ⟨[], mem, rfl⟩
  | cons op ops ih =>
    intro mem hsize
    obtain ⟨r, mem1, h1, hs1⟩ := step_total mem op hsize
    obtain ⟨rs, mem2, h2⟩ := ih mem1 (by rw [hs1]; exact hsize)
    exact ⟨r :: rs, mem2, by simp only [run, h1, h2]⟩

/-- A mempool made by `NewMempool`. -/
theorem NewMempool_inv (conf : Config) (opened : Option AutoFile) (mem : Mempool)
    (h : NewMempool conf opened = some mem) :
    mem.txs = [] ∧ mem.counter = 0 ∧ mem.cache = newTxCache cacheSize ∧
    mem.txFilters = [] := by
  unfold NewMempool at h
  cases hw : initWAL conf opened with
  | none => rw [hw] at h; simp at h
  | some wal =>
    rw [hw] at h
    simp only [Option.some.injEq] at h
    subst h
    exact ⟨rfl, rfl, rfl, rfl⟩

theorem successes_cons_nil (rs : List Ret) :
    successes (Ret.err none :: rs) = successes rs + 1 := by
  simp [successes]

theorem successes_cons_other (r : Ret) (rs : List Ret) (h : r ≠ Ret.err none) :
    successes (r :: rs) = successes rs := by
  simp [successes, List.count_cons, h]

/-- What the calls other than `ReceiveTx` give. -/
theorem step_other_inv (mem mem1 : Mempool) (op : Op) (r : Ret)
    (h : step mem op = some (r, mem1)) (hop : ∀ tx, op ≠ Op.ReceiveTx tx) :
    r ≠ Ret.err none ∧
    ((∃ n, op = Op.Reap n) ∧ mem1 = mem ∨
     (∃ ht T, op = Op.Update ht T ∧ mem1 = Update mem ht T) ∨
     op = Op.Flush ∧ mem1 = Flush mem ∨
     (∃ f, op = Op.RegisterFilter f ∧ mem1 = RegisterFilter mem f)) := by
  cases op with
  | ReceiveTx tx => exact absurd rfl (hop tx)
  | Reap n =>
    simp only [step, Option.some.injEq, Prod.mk.injEq] at h
    obtain ⟨h1, h2⟩ := h
    subst h1 h2
    exact ⟨by simp, Or.inl ⟨⟨n, rfl⟩, rfl⟩⟩
  | Update ht T =>
    simp only [step, Option.some.injEq, Prod.mk.injEq] at h
    obtain ⟨h1, h2⟩ := h
    subst h1 h2
    exact ⟨by simp, Or.inr (Or.inl ⟨ht, T, rfl, rfl⟩)⟩
  | Flush =>
    simp only [step, Option.some.injEq, Prod.mk.injEq] at h
    obtain ⟨h1, h2⟩ := h
    subst h1 h2
    exact ⟨by simp, Or.inr (Or.inr (Or.inl ⟨rfl, rfl⟩))⟩
  | RegisterFilter f =>
    simp only [step, Option.some.injEq, Prod.mk.injEq] at h
    obtain ⟨h1, h2⟩ := h
    subst h1 h2
    exact ⟨by simp, Or.inr (Or.inr (Or.inr ⟨f, rfl, rfl⟩))⟩

/-- One call keeps the counters of the pool strictly increasing and below the counter
of the mempool, as long as the counter does not pass `2 ^ 63 - 1`. -/
theorem step_counter (mem mem1 : Mempool) (op : Op) (r : Ret) (k : Nat)
    (hc : mem.counter = (k : Int))
    (hp : List.Pairwise (fun a b => a < b) (mem.txs.map (fun e => e.Counter)))
    (hb : ∀ e ∈ mem.txs, e.Counter ≤ mem.counter)
    (hs : step mem op = some (r, mem1))
    (hk : ((k + successes [r] : Nat) : Int) ≤ 2 ^ 63 - 1) :
    mem1.counter = ((k + successes [r] : Nat) : Int) ∧
    List.Pairwise (fun a b => a < b) (mem1.txs.map (fun e => e.Counter)) ∧
    ∀ e ∈ mem1.txs, e.Counter ≤ mem1.counter := by
  by_cases hop : ∃ tx, op = Op.ReceiveTx tx
  · obtain ⟨tx, rfl⟩ := hop
    rcases step_ReceiveTx_inv mem mem1 tx r hs with ⟨hr, hrec⟩ | ⟨e, hr, hm⟩
    · subst hr
      obtain ⟨_, _, _, c, _, rfl⟩ := ReceiveTx_nil_inv mem mem1 tx hrec
      rw [successes_cons_nil] at hk ⊢
      have hw : wrapInt64 (mem.counter + 1) = mem.counter + 1 := by
        apply wrapInt64_of_range
        · rw [hc]; omega
        · rw [hc]; simp only [successes, List.count_nil] at hk; omega
      simp only [CList.PushBack, List.map_append, List.map_cons, List.map_nil, hw]
      refine ⟨by rw [hc]; simp [successes], ?_, ?_⟩
      · rw [List.pairwise_append]
        refine ⟨hp, List.pairwise_singleton _ _, ?_⟩
        intro a ha b hb1
        rw [List.mem_map] at ha
        obtain ⟨e, he, rfl⟩ := ha
        rw [List.mem_singleton] at hb1
        subst hb1
        have := hb e he
        omega
      · intro e he
        rw [List.mem_append, List.mem_singleton] at he
        rcases he with he | he
        · have := hb e he
          omega
        · subst he
          exact le_refl _
    · subst hr hm
      rw [successes_cons_other _ _ (by simp)]
      exact ⟨hc, hp, hb⟩
  · have hop1 : ∀ tx, op ≠ Op.ReceiveTx tx := fun tx h => hop ⟨tx, h⟩
    obtain ⟨hr, hcases⟩ := step_other_inv mem mem1 op r hs hop1
    rw [successes_cons_other _ _ hr]
    rcases hcases with ⟨_, rfl⟩ | ⟨ht, T, _, rfl⟩ | ⟨_, rfl⟩ | ⟨f, _, rfl⟩
    · exact ⟨hc, hp, hb⟩
    · refine ⟨hc, ?_, ?_⟩
      · rw [Update_txs]
        exact List.Pairwise.sublist ((List.filter_sublist _).map _) hp
      · intro e he
        rw [Update_txs] at he
        exact hb e (List.mem_of_mem_filter he)
    · refine ⟨hc, ?_, ?_⟩
      · simp [Flush, flushLoop_eq]
      · simp [Flush, flushLoop_eq]
    · exact ⟨hc, hp, hb⟩

theorem run_counter (ops : List Op) :
    ∀ (mem mem1 : Mempool) (rs : List Ret) (k : Nat), mem.counter = (k : Int) →
      List.Pairwise (fun a b => a < b) (mem.txs.map (fun e => e.Counter)) →
      (∀ e ∈ mem.txs, e.Counter ≤ mem.counter) →
      run mem ops = some (rs, mem1) →
      ((k + successes rs : Nat) : Int) ≤ 2 ^ 63 - 1 →
      mem1.counter = ((k + successes rs : Nat) : Int) ∧
      List.Pairwise (fun a b => a < b) (mem1.txs.map (fun e => e.Counter)) ∧
      ∀ e ∈ mem1.txs, e.Counter ≤ mem1.counter := by
  induction ops with
  | nil =>
    intro mem mem1 rs k hc hp hb hrun _
    simp only [run, Option.some.injEq, Prod.mk.injEq] at hrun
    obtain ⟨h1, h2⟩ := hrun
    subst h1 h2
    exact ⟨by simpa [successes] using hc, hp, hb⟩
  | cons op ops ih =>
    intro mem mem2 rs k hc hp hb hrun hk
    obtain ⟨r, mem1, rs1, hstep, hrest, rfl⟩ := run_cons_inv mem mem2 op ops rs hrun
    have hsplit : successes (r :: rs1) = successes [r] + successes rs1 := by
      by_cases hr : r = Ret.err none
      · subst hr
        rw [successes_cons_nil, successes_cons_nil]
        simp [successes]
        omega
      · rw [successes_cons_other _ _ hr, successes_cons_other _ _ hr]
        simp [successes]
    rw [hsplit] at hk ⊢
    obtain ⟨hc1, hp1, hb1⟩ := step_counter mem mem1 op r k hc hp hb hstep (by push_cast at hk ⊢; omega)
    have := ih mem1 mem2 rs1 (k + successes [r]) hc1 hp1 hb1 hrest
      (by push_cast at hk ⊢; omega)
    rw [Nat.add_assoc] at this
    exact this

/-- The pool after `Update` is shorter by the number of entries that are in the block
or fail the recheck. -/
theorem Update_Size (mem : Mempool) (ht : Int) (T : List Tx) :
    Size (Update mem ht T) = Size mem - (removedBy mem (Op.Update ht T) : Int) := by
  have hq : mem.txs.filter (fun e => decide (e.Tx ∈ T) || (recheckTx mem e.Tx).isSome) =
      mem.txs.filter (fun e => ! (decide (e.Tx ∉ T) && (recheckTx mem e.Tx).isNone)) := by
    apply List.filter_congr
    intro e _
    by_cases h1 : e.Tx ∈ T <;> cases h2 : recheckTx mem e.Tx <;> simp [h1]
  have hlen := List.length_eq_length_filter_add (l := mem.txs)
    (fun e => decide (e.Tx ∉ T) && (recheckTx mem e.Tx).isNone)
  simp only [Size, CList.Len, removedBy, Update_txs, hq]
  omega

/-- The effect of one call on `Size`. -/
theorem step_Size (mem mem1 : Mempool) (op : Op) (r : Ret)
    (hs : step mem op = some (r, mem1)) :
    Size mem1 = Size mem + (successes [r] : Int) - (removedBy mem op : Int) := by
  by_cases hop : ∃ tx, op = Op.ReceiveTx tx
  · obtain ⟨tx, rfl⟩ := hop
    rcases step_ReceiveTx_inv mem mem1 tx r hs with ⟨hr, hrec⟩ | ⟨e, hr, hm⟩
    · subst hr
      obtain ⟨_, _, _, c, _, rfl⟩ := ReceiveTx_nil_inv mem mem1 tx hrec
      simp [Size, CList.Len, CList.PushBack, successes, removedBy]
    · subst hr hm
      simp [successes, removedBy]
  · have hop1 : ∀ tx, op ≠ Op.ReceiveTx tx := fun tx h => hop ⟨tx, h⟩
    obtain ⟨hr, hcases⟩ := step_other_inv mem mem1 op r hs hop1
    rw [successes_cons_other _ _ hr]
    rcases hcases with ⟨⟨n, rfl⟩, rfl⟩ | ⟨ht, T, rfl, rfl⟩ | ⟨rfl, rfl⟩ | ⟨f, rfl, rfl⟩
    · simp [successes, removedBy]
    · rw [Update_Size]
      simp [successes]
    · simp [successes, removedBy, Size, CList.Len, Flush, flushLoop_eq]
    · simp [successes, removedBy, Size, RegisterFilter]

theorem run_Size (ops : List Op) :
    ∀ (mem mem1 : Mempool) (rs : List Ret), run mem ops = some (rs, mem1) →
      Size mem1 = Size mem + (successes rs : Int) - (totalRemoved mem ops : Int) := by
  induction ops with
  | nil =>
    intro mem mem1 rs hrun
    simp only [run, Option.some.injEq, Prod.mk.injEq] at hrun
    obtain ⟨h1, h2⟩ := hrun
    subst h1 h2
    simp [successes, totalRemoved]
  | cons op ops ih =>
    intro mem mem2 rs hrun
    obtain ⟨r, mem1, rs1, hstep, hrest, rfl⟩ := run_cons_inv mem mem2 op ops rs hrun
    have h1 := step_Size mem mem1 op r hstep
    have h2 := ih mem1 mem2 rs1 hrest
    have hsplit : successes (r :: rs1) = successes [r] + successes rs1 := by
      by_cases hr : r = Ret.err none
      · subst hr
        rw [successes_cons_nil, successes_cons_nil]
        simp [successes]
        omega
      · rw [successes_cons_other _ _ hr, successes_cons_other _ _ hr]
        simp [successes]
    simp only [totalRemoved, hstep, hsplit]
    push_cast
    omega

theorem walWrites_ok (af : AutoFile) (tx : Tx) :
    walWrites (some af) tx = some { log := af.log ++ (tx ++ [10]) } := by
  simp [walWrites, AutoFile.Write]

theorem admitted_cons_other (op : Op) (ops : List Op) (r : Ret) (rs : List Ret)
    (h : (∀ tx, op ≠ Op.ReceiveTx tx) ∨ r ≠ Ret.err none) :
    admitted (op :: ops) (r :: rs) = admitted ops rs := by
  cases op with
  | ReceiveTx tx =>
    rcases h with h | h
    · exact absurd rfl (h tx)
    · cases r with
      | err e =>
        cases e with
        | none => exact absurd rfl h
        | some e => rfl
      | txs l => rfl
      | unit => rfl
  | Reap n => rfl
  | Update ht T => rfl
  | Flush => rfl
  | RegisterFilter f => rfl

/-- The effect of one call on the WAL. -/
theorem step_wal (mem mem1 : Mempool) (af : AutoFile) (op : Op) (r : Ret)
    (hw : mem.wal = some af) (hs : step mem op = some (r, mem1)) :
    mem1.wal = some { log := af.log ++ walRecords (admitted [op] [r]) } := by
  have hsame : some af = some ({ log := af.log ++ walRecords [] } : AutoFile) := by
    obtain ⟨log⟩ := af
    simp [walRecords]
  by_cases hop : ∃ tx, op = Op.ReceiveTx tx
  · obtain ⟨tx, rfl⟩ := hop
    rcases step_ReceiveTx_inv mem mem1 tx r hs with ⟨hr, hrec⟩ | ⟨e, hr, hm⟩
    · subst hr
      obtain ⟨_, _, _, c, _, rfl⟩ := ReceiveTx_nil_inv mem mem1 tx hrec
      simp only [hw, walWrites_ok af tx, admitted, walRecords, List.append_nil]
    · subst hr hm
      rw [admitted_cons_other _ _ _ _ (Or.inr (by simp))]
      simp only [admitted]
      rw [hw]
      exact hsame
  · have hop1 : ∀ tx, op ≠ Op.ReceiveTx tx := fun tx h => hop ⟨tx, h⟩
    obtain ⟨_, hcases⟩ := step_other_inv mem mem1 op r hs hop1
    rw [admitted_cons_other _ _ _ _ (Or.inl hop1)]
    simp only [admitted]
    have hwal : mem1.wal = mem.wal := by
      rcases hcases with ⟨_, rfl⟩ | ⟨ht, T, _, rfl⟩ | ⟨_, rfl⟩ | ⟨f, _, rfl⟩ <;> rfl
    rw [hwal, hw]
    exact hsame

theorem walRecords_append (xs ys : List Tx) :
    walRecords (xs ++ ys) = walRecords xs ++ walRecords ys := by
  induction xs with
  | nil => simp [walRecords]
  | cons x xs ih => simp [walRecords, ih, List.append_assoc]

theorem admitted_cons_split (op : Op) (ops : List Op) (r : Ret) (rs : List Ret) :
    admitted (op :: ops) (r :: rs) = admitted [op] [r] ++ admitted ops rs := by
  by_cases h : (∀ tx, op ≠ Op.ReceiveTx tx) ∨ r ≠ Ret.err none
  · rw [admitted_cons_other _ _ _ _ h, admitted_cons_other _ _ _ _ h]
    simp [admitted]
  · simp only [not_or, not_forall, not_not] at h
    obtain ⟨⟨tx, rfl⟩, rfl⟩ := h
    simp [admitted]

theorem run_wal (ops : List Op) :
    ∀ (mem mem1 : Mempool) (af : AutoFile) (rs : List Ret), mem.wal = some af →
      run mem ops = some (rs, mem1) →
      mem1.wal = some { log := af.log ++ walRecords (admitted ops rs) } := by
  induction ops with
  | nil =>
    intro mem mem1 af rs hw hrun
    simp only [run, Option.some.injEq, Prod.mk.injEq] at hrun
    obtain ⟨h1, h2⟩ := hrun
    subst h1 h2
    obtain ⟨log⟩ := af
    simp [hw, admitted, walRecords]
  | cons op ops ih =>
    intro mem mem2 af rs hw hrun
    obtain ⟨r, mem1, rs1, hstep, hrest, rfl⟩ := run_cons_inv mem mem2 op ops rs hrun
    have h1 := step_wal mem mem1 af op r hw hstep
    have h2 := ih mem1 mem2 _ rs1 h1 hrest
    rw [h2, admitted_cons_split op ops r rs1, walRecords_append]
    simp [List.append_assoc]

/-- A push of an absent tx into a cache that is not full adds the tx to the map and to
the tail of the list, and evicts nothing. -/
theorem Push_below (cache c : txCache) (tx : Tx) (hlen : (List.length cache.list : Int) < cache.size)
    (h : cache.Push tx = some (true, c)) :
    c = { cache with checkMap := insert tx cache.checkMap, list := cache.list ++ [tx] } := by
  have habs := (Push_true_inv cache c tx h).1
  unfold txCache.Push at h
  rw [if_neg habs, if_neg (by omega)] at h
  simp only [Option.some.injEq, Prod.mk.injEq, true_and] at h
  exact h.symm

theorem admitsSinceFlush_cons (k : Nat) (op : Op) (ops : List Op) (r : Ret) (rs : List Ret) :
    admitsSinceFlush k (op :: ops) (r :: rs) =
      admitsSinceFlush (admitsSinceFlush k [op] [r]) ops rs := by
  cases op with
  | ReceiveTx tx =>
    cases r with
    | err e =>
      cases e with
      | none => simp [admitsSinceFlush]
      | some e => simp [admitsSinceFlush]
    | txs l => simp [admitsSinceFlush]
    | unit => simp [admitsSinceFlush]
  | Reap n => simp [admitsSinceFlush]
  | Update ht T => simp [admitsSinceFlush]
  | Flush => simp [admitsSinceFlush]
  | RegisterFilter f => simp [admitsSinceFlush]

theorem admitsSinceFlush_other (k : Nat) (op : Op) (r : Ret) (hflush : op ≠ Op.Flush)
    (h : (∀ tx, op ≠ Op.ReceiveTx tx) ∨ r ≠ Ret.err none) :
    admitsSinceFlush k [op] [r] = k := by
  cases op with
  | ReceiveTx tx =>
    rcases h with h | h
    · exact absurd rfl (h tx)
    · cases r with
      | err e =>
        cases e with
        | none => exact absurd rfl h
        | some e => simp [admitsSinceFlush]
      | txs l => simp [admitsSinceFlush]
      | unit => simp [admitsSinceFlush]
  | Reap n => simp [admitsSinceFlush]
  | Update ht T => simp [admitsSinceFlush]
  | Flush => exact absurd rfl hflush
  | RegisterFilter f => simp [admitsSinceFlush]

/-- One call keeps the pool inside the seen-cache, and the txs of the pool pairwise
distinct, while the number of admissions since the last reset of the cache is at most
its capacity. -/
theorem step_pool_in_cache (mem mem1 : Mempool) (op : Op) (r : Ret) (k : Nat) (C : Int)
    (hsz : mem.cache.size = C)
    (hinv : (k : Int) ≤ C → List.length mem.cache.list = k ∧
      (mem.txs.map (fun e => e.Tx)).Nodup ∧ ∀ e ∈ mem.txs, e.Tx ∈ mem.cache.checkMap)
    (hs : step mem op = some (r, mem1)) :
    mem1.cache.size = C ∧
    ((admitsSinceFlush k [op] [r] : Int) ≤ C →
      List.length mem1.cache.list = admitsSinceFlush k [op] [r] ∧
      (mem1.txs.map (fun e => e.Tx)).Nodup ∧ ∀ e ∈ mem1.txs, e.Tx ∈ mem1.cache.checkMap) := by
  by_cases hop : ∃ tx, op = Op.ReceiveTx tx
  · obtain ⟨tx, rfl⟩ := hop
    rcases step_ReceiveTx_inv mem mem1 tx r hs with ⟨hr, hrec⟩ | ⟨e, hr, hm⟩
    · subst hr
      obtain ⟨hex, _, _, c, hc, rfl⟩ := ReceiveTx_nil_inv mem mem1 tx hrec
      obtain ⟨habs, _, hcs, _⟩ := Push_true_inv mem.cache c tx hc
      refine ⟨by simp only []; rw [hcs, hsz], ?_⟩
      have hk : admitsSinceFlush k [Op.ReceiveTx tx] [Ret.err none] = k + 1 := by
        simp [admitsSinceFlush]
      rw [hk]
      intro hle
      obtain ⟨hlen, hnd, hin⟩ := hinv (by push_cast at hle; omega)
      have hc2 := Push_below mem.cache c tx (by rw [hlen, hsz]; push_cast at hle; omega) hc
      subst hc2
      simp only [CList.PushBack, List.length_append, List.length_singleton, hlen,
        List.map_append, List.map_cons, List.map_nil, true_and]
      refine ⟨?_, ?_⟩
      · rw [List.nodup_append]
        refine ⟨hnd, List.nodup_singleton _, ?_⟩
        intro a ha hb
        rw [List.mem_singleton] at hb
        subst hb
        rw [List.mem_map] at ha
        obtain ⟨e, he, heq⟩ := ha
        exact habs (heq ▸ hin e he)
      · intro e he
        rw [List.mem_append, List.mem_singleton] at he
        rcases he with he | he
        · exact Finset.mem_insert_of_mem (hin e he)
        · subst he
          exact Finset.mem_insert_self _ _
    · subst hr hm
      rw [admitsSinceFlush_other k _ _ (by simp) (Or.inr (by simp))]
      exact ⟨hsz, hinv⟩
  · have hop1 : ∀ tx, op ≠ Op.ReceiveTx tx := fun tx h => hop ⟨tx, h⟩
    obtain ⟨_, hcases⟩ := step_other_inv mem mem1 op r hs hop1
    rcases hcases with ⟨⟨n, rfl⟩, rfl⟩ | ⟨ht, T, rfl, rfl⟩ | ⟨rfl, rfl⟩ | ⟨f, rfl, rfl⟩
    · rw [admitsSinceFlush_other k _ _ (by simp) (Or.inl hop1)]
      exact ⟨hsz, hinv⟩
    · rw [admitsSinceFlush_other k _ _ (by simp) (Or.inl hop1)]
      obtain ⟨h1, h2, h3⟩ := Update_cache mem ht T
      refine ⟨by rw [h1, hsz], ?_⟩
      intro hle
      obtain ⟨hlen, hnd, hin⟩ := hinv hle
      refine ⟨by rw [h2, hlen], ?_, ?_⟩
      · rw [Update_txs]
        exact List.Nodup.sublist ((List.filter_sublist _).map _) hnd
      · intro e he
        rw [Update_txs] at he
        simp only [List.mem_filter, Bool.and_eq_true, decide_eq_true_eq,
          Option.isNone_iff_eq_none] at he
        obtain ⟨hmem, hT, hre⟩ := he
        rw [h3]
        refine ⟨hin e hmem, ?_⟩
        intro e1 _ heq
        rw [heq]
        exact ⟨hT, hre⟩
    · refine ⟨hsz, ?_⟩
      intro _
      simp [admitsSinceFlush, Flush, txCache.Reset, flushLoop_eq]
    · rw [admitsSinceFlush_other k _ _ (by simp) (Or.inl hop1)]
      exact ⟨hsz, hinv⟩

theorem run_pool_in_cache (C : Int) (ops : List Op) :
    ∀ (mem mem1 : Mempool) (rs : List Ret) (k : Nat), mem.cache.size = C →
      ((k : Int) ≤ C → List.length mem.cache.list = k ∧
        (mem.txs.map (fun e => e.Tx)).Nodup ∧ ∀ e ∈ mem.txs, e.Tx ∈ mem.cache.checkMap) →
      run mem ops = some (rs, mem1) →
      mem1.cache.size = C ∧
      ((admitsSinceFlush k ops rs : Int) ≤ C →
        List.length mem1.cache.list = admitsSinceFlush k ops rs ∧
        (mem1.txs.map (fun e => e.Tx)).Nodup ∧
        ∀ e ∈ mem1.txs, e.Tx ∈ mem1.cache.checkMap) := by
  induction ops with
  | nil =>
    intro mem mem1 rs k hsz hinv hrun
    simp only [run, Option.some.injEq, Prod.mk.injEq] at hrun
    obtain ⟨h1, h2⟩ := hrun
    subst h1 h2
    simpa [admitsSinceFlush] using ⟨hsz, hinv⟩
  | cons op ops ih =>
    intro mem mem2 rs k hsz hinv hrun
    obtain ⟨r, mem1, rs1, hstep, hrest, rfl⟩ := run_cons_inv mem mem2 op ops rs hrun
    obtain ⟨hsz1, hinv1⟩ := step_pool_in_cache mem mem1 op r k C hsz hinv hstep
    rw [admitsSinceFlush_cons]
    exact ih mem1 mem2 rs1 _ hsz1 hinv1 hrest

/-! ## Claims -/

/-- C1: after `Update mem h T` no entry of the pool carries a tx of `T`, and
`Reap (-1)` called right after it returns a list that shares no element with `T`. -/
theorem Update_removes_committed (mem : Mempool) (h : Int) (T : List Tx) :
    (∀ e ∈ (Update mem h T).txs, e.Tx ∉ T) ∧
    (∀ tx ∈ Reap (Update mem h T) (-1), tx ∉ T) := by
  have hpool : ∀ e ∈ (Update mem h T).txs, e.Tx ∉ T := by
    intro e he
    rw [Update_txs] at he
    simp only [List.mem_filter, Bool.and_eq_true, decide_eq_true_eq] at he
    exact he.2.1
  refine ⟨hpool, ?_⟩
  intro tx htx
  unfold Reap collectTxs at htx
  simp only [show ¬ ((-1 : Int) = 0) by decide, if_false, show ((-1 : Int) < 0) by decide,
    if_true] at htx
  rw [collectLoop_eq] at htx
  simp only [List.nil_append] at htx
  have := List.mem_of_mem_take htx
  rw [List.mem_map] at this
  obtain ⟨e, he, rfl⟩ := this
  exact hpool e he

/-- C2: with a cache of positive capacity, `ReceiveTx mem tx` returns, and it returns
nil exactly when tx is not in the seen-cache, the limit is not both enabled and
exceeded, and every registered filter accepts tx.  Otherwise the error is
`ErrTxInCache` if tx is in the cache, else the capacity error if the limit is enabled
and exceeded, else the wrapped error of the filter chain. -/
theorem ReceiveTx_nil_iff (mem : Mempool) (tx : Tx) (hsize : 0 < mem.cache.size) :
    ∃ err mem1, ReceiveTx mem tx = some (err, mem1) ∧
      (err = none ↔
        (mem.cache.Exists tx = false ∧
         ¬ (mem.config.mempool_enable_txs_limits = true ∧ Size mem > mem.txLimit) ∧
         ∀ f ∈ mem.txFilters, f.CheckTx tx = none)) ∧
      (mem.cache.Exists tx = true → err = some GoError.ErrTxInCache) ∧
      (mem.cache.Exists tx = false →
        (mem.config.mempool_enable_txs_limits = true ∧ Size mem > mem.txLimit) →
        err = some (GoError.New "Too many unsolved TX (rejected)")) ∧
      (mem.cache.Exists tx = false →
        ¬ (mem.config.mempool_enable_txs_limits = true ∧ Size mem > mem.txLimit) →
        ¬ (∀ f ∈ mem.txFilters, f.CheckTx tx = none) →
        ∃ cause, checkTxWithFilters mem tx = some cause ∧
          err = some (GoError.New ("plugin checktx failed with error: " ++ cause.Error))) := by
  have hlim : overLimit mem = true ↔
      (mem.config.mempool_enable_txs_limits = true ∧ Size mem > mem.txLimit) := by
    simp [overLimit, Size]
  cases he : mem.cache.Exists tx with
  | true =>
    refine ⟨_, _, ReceiveTx_of_exists mem tx he, ?_, ?_, ?_, ?_⟩ <;> simp
  | false =>
    cases hl : overLimit mem with
    | true =>
      have hl2 := hlim.mp hl
      refine ⟨_, _, ReceiveTx_of_limit mem tx he hl, ?_, ?_, ?_, ?_⟩
      · simp [hl2]
      · simp
      · simp
      · intro _ h; exact absurd hl2 h
    | false =>
      have hl2 : ¬ (mem.config.mempool_enable_txs_limits = true ∧ Size mem > mem.txLimit) := by
        rw [← hlim, hl]; simp
      cases hf : checkTxWithFilters mem tx with
      | some cause =>
        have hrej : ¬ (∀ f ∈ mem.txFilters, f.CheckTx tx = none) := by
          rw [← checkTxWithFilters_none_iff, hf]; simp
        refine ⟨_, _, ReceiveTx_of_reject mem tx cause he hl hf, ?_, ?_, ?_, ?_⟩
        · simp [hrej]
        · simp
        · intro _ h; exact absurd h hl2
        · intro _ _ _; exact ⟨cause, rfl, rfl⟩
      | none =>
        have hacc := (checkTxWithFilters_none_iff mem tx).mp hf
        have habs : tx ∉ mem.cache.checkMap := by simpa [txCache.Exists] using he
        obtain ⟨c, hc, _⟩ := Push_absent mem.cache tx habs (Or.inr hsize)
        refine ⟨_, _, ReceiveTx_of_pass mem tx c he hl hf hc, ?_, ?_, ?_, ?_⟩
        · simp only [true_iff]; exact ⟨trivial, hl2, hacc⟩
        · simp
        · intro _ h; exact absurd h hl2
        · intro _ _ h; exact absurd hacc h

/-- C2 at `sampleMem` and the tx `[1]`: the call returns nil. -/
theorem ReceiveTx_nil_iff_witness :
    0 < sampleMem.cache.size ∧
    ∃ err mem1, ReceiveTx sampleMem [1] = some (err, mem1) ∧ err = none := by
  refine ⟨by decide, ?_⟩
  obtain ⟨err, mem1, h, hiff, _⟩ := ReceiveTx_nil_iff sampleMem [1] (by decide)
  exact ⟨err, mem1, h, hiff.mpr ⟨by decide, by decide, by simp [sampleMem]⟩⟩

/-- C3: if `ReceiveTx mem tx` returns nil, an immediately following `ReceiveTx` of the
same bytes returns `ErrTxInCache` and leaves the state, hence `Size` and the pool
contents, unchanged. -/
theorem ReceiveTx_twice (mem mem1 : Mempool) (tx : Tx)
    (h : ReceiveTx mem tx = some (none, mem1)) :
    ∃ mem2, ReceiveTx mem1 tx = some (some GoError.ErrTxInCache, mem2) ∧
      Size mem2 = Size mem1 ∧ mem2.txs = mem1.txs := by
  obtain ⟨_, _, _, c, hc, rfl⟩ := ReceiveTx_nil_inv mem mem1 tx h
  have hin := (Push_true_inv mem.cache c tx hc).2.1
  refine ⟨_, ReceiveTx_of_exists _ tx ?_, rfl, rfl⟩
  simpa [txCache.Exists] using hin

/-- C3 at `sampleMem` and the tx `[1]`. -/
theorem ReceiveTx_twice_witness :
    ∃ mem1, ReceiveTx sampleMem [1] = some (none, mem1) ∧
      ∃ mem2, ReceiveTx mem1 [1] = some (some GoError.ErrTxInCache, mem2) ∧
        Size mem2 = Size mem1 ∧ mem2.txs = mem1.txs := by
  obtain ⟨mem1, h⟩ := ReceiveTx_sampleMem
  exact ⟨mem1, h, ReceiveTx_twice sampleMem mem1 [1] h⟩

/-- C4, as stated, fails: with `block_size = 1`, the limit on and no filters, the
third of three distinct txs received by a fresh mempool is admitted (nil), it does
not get the capacity error. -/
theorem capacity_third_admitted :
    exec sampleConf none [Op.ReceiveTx [1], Op.ReceiveTx [2], Op.ReceiveTx [3]] =
      some [Ret.err none, Ret.err none, Ret.err none] := by
  decide

/-- C4, amended: with `block_size = 1` (so `txLimit = 2`), the limit on and no filters,
of four pairwise distinct txs received by a fresh mempool the first three are admitted
and the fourth fails with the capacity error (the check is `Len > txLimit`). -/
theorem capacity_fourth_rejected (conf : Config) (opened : Option AutoFile) (mem : Mempool)
    (a b c d : Tx) (hnew : NewMempool conf opened = some mem)
    (hb : conf.block_size = 1) (hl : conf.mempool_enable_txs_limits = true)
    (hd : [a, b, c, d].Nodup) :
    mem.txLimit = 2 ∧
    (run mem [Op.ReceiveTx a, Op.ReceiveTx b, Op.ReceiveTx c, Op.ReceiveTx d]).map Prod.fst =
      some [Ret.err none, Ret.err none, Ret.err none,
            Ret.err (some (GoError.New "Too many unsolved TX (rejected)"))] := by
  unfold NewMempool at hnew
  cases hw : initWAL conf opened with
  | none => rw [hw] at hnew; simp at hnew
  | some wal =>
    rw [hw] at hnew
    simp only [Option.some.injEq] at hnew
    subst hnew
    have h2 : wrapInt64 (conf.block_size * 2) = 2 := by rw [hb]; decide
    simp only [List.nodup_cons, List.mem_cons, List.mem_singleton, not_or, List.not_mem_nil,
      not_false_eq_true, List.nodup_nil, and_true] at hd
    obtain ⟨⟨hab, hac, had⟩, ⟨hbc, hbd⟩, hcd⟩ := hd
    refine ⟨h2, ?_⟩
    simp [run, step, ReceiveTx, txCache.Exists, txCache.Push, newTxCache, cacheSize,
      checkTxWithFilters, CList.Len, CList.PushBack, h2, hl, hab, hac, had, hbc, hbd, hcd,
      Ne.symm hab, Ne.symm hac, Ne.symm had, Ne.symm hbc, Ne.symm hbd, Ne.symm hcd]

/-- C4, amended, at the txs `[1]`, `[2]`, `[3]`, `[4]`. -/
theorem capacity_fourth_rejected_witness :
    (run sampleMem
        [Op.ReceiveTx [1], Op.ReceiveTx [2], Op.ReceiveTx [3], Op.ReceiveTx [4]]).map Prod.fst =
      some [Ret.err none, Ret.err none, Ret.err none,
            Ret.err (some (GoError.New "Too many unsolved TX (rejected)"))] :=
  (capacity_fourth_rejected sampleConf none sampleMem [1] [2] [3] [4] (by rfl) rfl rfl
    (by decide)).2

/-- C5: `Reap mem n` is the list of the tx bytes of the pool entries, in pool order from
the head: all of them when `n < 0`, the first `min n (Size mem)` of them otherwise
(none when `n = 0`).  So `Reap mem (-1)` is the pool contents in order, and the length
of the result is `min n (Size mem)` for `n ≥ 0`. -/
theorem Reap_eq (mem : Mempool) (n : Int) :
    Reap mem n =
      (if n < 0 then mem.txs.map (fun e => e.Tx)
       else (mem.txs.map (fun e => e.Tx)).take (min n (Size mem)).toNat) ∧
    Reap mem 0 = [] ∧
    Reap mem (-1) = mem.txs.map (fun e => e.Tx) ∧
    ((List.length (Reap mem n) : Int) = if n < 0 then Size mem else min n (Size mem)) := by
  have key : ∀ m : Int, Reap mem m =
      (if m < 0 then mem.txs.map (fun e => e.Tx)
       else (mem.txs.map (fun e => e.Tx)).take (min m (Size mem)).toNat) := by
    intro m
    unfold Reap collectTxs
    by_cases h0 : m = 0
    · subst h0; simp
    · rw [if_neg h0]
      simp only []
      rw [collectLoop_eq]
      by_cases hneg : m < 0
      · simp only [if_pos hneg, List.nil_append, List.length_nil, CList.Len]
        apply List.take_of_length_le
        simp
      · simp only [if_neg hneg, List.nil_append, List.length_nil, MinInt, Size, CList.Len]
        congr 1
        split <;> omega
  refine ⟨key n, ?_, ?_, ?_⟩
  · rw [key 0]; simp
  · rw [key (-1)]; simp
  · rw [key n]
    by_cases hneg : n < 0
    · simp [hneg, Size, CList.Len]
    · simp only [if_neg hneg, List.length_take, List.length_map, Size, CList.Len]
      omega

/-- C6: after `Flush` the pool is empty, `Size` is 0, and the seen-cache reports no tx
as present. -/
theorem Flush_clears (mem : Mempool) :
    (Flush mem).txs = [] ∧ Size (Flush mem) = 0 ∧
    ∀ tx, (Flush mem).cache.Exists tx = false := by
  refine ⟨flushLoop_eq _, ?_, ?_⟩
  · simp [Size, Flush, flushLoop_eq, CList.Len]
  · intro tx
    simp [Flush, txCache.Reset, txCache.Exists]

/-- C7, as stated, fails: a tx that was admitted and then committed by `Update` is
admitted again (nil) by the next `ReceiveTx`, it is not rejected with `ErrTxInCache`. -/
theorem committed_tx_readmitted :
    exec sampleConf none [Op.ReceiveTx [1], Op.Update 1 [[1]], Op.ReceiveTx [1]] =
      some [Ret.err none, Ret.unit, Ret.err none] := by
  decide

/-- C7, amended: `Update` removes the committed txs it finds in the pool from the
seen-cache as well.  If `ReceiveTx mem tx` succeeds and then `Update h T` with tx in `T`
commits it, then after the update `Exists tx` is false and a `ReceiveTx tx` made right
after it returns nil: the tx is admitted again. -/
theorem Update_forgets_committed (mem mem1 : Mempool) (tx : Tx) (h : Int) (T : List Tx)
    (hr : ReceiveTx mem tx = some (none, mem1)) (hT : tx ∈ T) :
    (Update mem1 h T).cache.Exists tx = false ∧
    ∃ mem3, ReceiveTx (Update mem1 h T) tx = some (none, mem3) := by
  obtain ⟨_, hl, hf, c, hc, rfl⟩ := ReceiveTx_nil_inv mem mem1 tx hr
  obtain ⟨_, _, _, hlist⟩ := Push_true_inv mem.cache c tx hc
  generalize hm1 : ({ mem with
      wal := walWrites mem.wal tx, cache := c, counter := wrapInt64 (mem.counter + 1),
      txs := CList.PushBack mem.txs
        { Counter := wrapInt64 (mem.counter + 1), Height := mem.height, Tx := tx } } : Mempool)
    = m1
  have htxs : m1.txs = mem.txs ++ [TxInPool.mk (wrapInt64 (mem.counter + 1)) mem.height tx] := by
    subst hm1; rfl
  have hcache : m1.cache = c := by subst hm1; rfl
  have hconf : m1.config = mem.config := by subst hm1; rfl
  have hlimit : m1.txLimit = mem.txLimit := by subst hm1; rfl
  have hfil : m1.txFilters = mem.txFilters := by subst hm1; rfl
  obtain ⟨_, hl2, hmap⟩ := Update_cache m1 h T
  have hex : (Update m1 h T).cache.Exists tx = false := by
    simp only [txCache.Exists, decide_eq_false_iff_not]
    intro hin
    have := ((hmap tx).mp hin).2 (TxInPool.mk (wrapInt64 (mem.counter + 1)) mem.height tx)
      (by rw [htxs]; simp) rfl
    exact this.1 hT
  refine ⟨hex, ?_⟩
  apply ReceiveTx_admits _ _ hex
  · have hlen : (List.length (Update m1 h T).txs : Int) ≤ (List.length mem.txs : Int) := by
      rw [Update_txs, htxs, List.filter_append]
      have : List.filter (fun e => decide (e.Tx ∉ T) && (recheckTx m1 e.Tx).isNone)
          [TxInPool.mk (wrapInt64 (mem.counter + 1)) mem.height tx] = [] := by
        simp [List.filter_cons, hT]
      rw [this, List.append_nil]
      exact_mod_cast List.length_filter_le _ _
    have hc1 : (Update m1 h T).config = mem.config := hconf
    have hc2 : (Update m1 h T).txLimit = mem.txLimit := hlimit
    simp only [overLimit, hc1, hc2, CList.Len, Bool.and_eq_false_imp, decide_eq_false_iff_not,
      not_lt, gt_iff_lt] at hl ⊢
    intro hen
    have := hl hen
    omega
  · have : checkTxWithFilters (Update m1 h T) tx = checkTxWithFilters mem tx := by
      have hu : (Update m1 h T).txFilters = mem.txFilters := hfil
      simp only [checkTxWithFilters, hu]
    rw [this]; exact hf
  · left
    rw [hl2, hcache]
    exact hlist

/-- C7, amended, at `sampleMem`, the tx `[1]` and the block `[[1]]`. -/
theorem Update_forgets_committed_witness :
    ∃ mem1, ReceiveTx sampleMem [1] = some (none, mem1) ∧
      (Update mem1 1 [[1]]).cache.Exists [1] = false ∧
      ∃ mem3, ReceiveTx (Update mem1 1 [[1]]) [1] = some (none, mem3) := by
  obtain ⟨mem1, h⟩ := ReceiveTx_sampleMem
  exact ⟨mem1, h, Update_forgets_committed sampleMem mem1 [1] 1 [[1]] h (by decide)⟩

/-- C8: for a capacity `C ≥ 1`, after pushing `k` pairwise distinct txs in order into an
empty cache, `Exists` is true exactly for the last `min k C` txs pushed.  In particular
after `C + 1` distinct pushes the first tx is absent and can be pushed again, while the
other `C` are present. -/
theorem Push_fifo_window (C : Int) (hC : 1 ≤ C) (xs : List Tx) (hd : xs.Nodup) :
    ∃ c, (newTxCache C).run (xs.map CacheOp.Push) = some c ∧
      (∀ tx, c.Exists tx = true ↔
        tx ∈ xs.drop (xs.length - min xs.length C.toNat)) ∧
      (∀ x rest, xs = x :: rest → (List.length rest : Int) = C →
        c.Exists x = false ∧ (∀ y ∈ rest, c.Exists y = true) ∧
        ∃ c2, c.Push x = some (true, c2)) := by
  obtain ⟨c, old1, hrun, hs, hm, hsplit, hlen⟩ :=
    run_push_window C hC xs (newTxCache C) [] rfl rfl (by simpa [newTxCache] using hd)
      (by simp [newTxCache]; omega)
  simp only [newTxCache, List.append_nil, List.nil_append] at hsplit hlen
  have hlist : c.list = xs.drop (xs.length - min xs.length C.toNat) := by
    have h1 : xs.length - min xs.length C.toNat = old1.length := by
      have := congrArg List.length hsplit
      simp only [List.length_append] at this
      omega
    rw [h1, hsplit, List.drop_left]
  have hex : ∀ tx, c.Exists tx = true ↔ tx ∈ xs.drop (xs.length - min xs.length C.toNat) := by
    intro tx
    rw [← hlist]
    simp [txCache.Exists, hm]
  refine ⟨c, hrun, hex, ?_⟩
  intro x rest hxs hrest
  subst hxs
  have hdrop : (x :: rest).drop ((x :: rest).length - min (x :: rest).length C.toNat) = rest := by
    have : (x :: rest).length - min (x :: rest).length C.toNat = 1 := by
      simp only [List.length_cons]
      omega
    rw [this]
    rfl
  have hx : x ∉ rest := (List.nodup_cons.mp hd).1
  have hxabs : c.Exists x = false := by
    cases h : c.Exists x with
    | false => rfl
    | true =>
      rw [hex, hdrop] at h
      exact absurd h hx
  refine ⟨hxabs, ?_, ?_⟩
  · intro y hy
    rw [hex, hdrop]
    exact hy
  · have habs : x ∉ c.checkMap := by simpa [txCache.Exists] using hxabs
    obtain ⟨c2, h2, _⟩ := Push_absent c x habs (Or.inr (by rw [hs]; omega))
    exact ⟨c2, h2⟩

/-- C8 at `C = 2` and the txs `[1]`, `[2]`, `[3]`: after the three pushes the first is
absent and the other two are present. -/
theorem Push_fifo_window_witness :
    ∃ c, (newTxCache 2).run [CacheOp.Push [1], CacheOp.Push [2], CacheOp.Push [3]] = some c ∧
      c.Exists [1] = false ∧ c.Exists [2] = true ∧ c.Exists [3] = true := by
  obtain ⟨c, hrun, hex, hfirst⟩ :=
    Push_fifo_window 2 (by decide) [[1], [2], [3]] (by decide)
  obtain ⟨h1, h2, _⟩ := hfirst [1] [[2], [3]] rfl (by decide)
  exact ⟨c, hrun, h1, h2 [2] (by decide), h2 [3] (by decide)⟩

/-- C9 fails on the code: with capacity 3, after `Push a`, `Push b`, `Remove a`, `Push a`
both txs are present, b from the second call and a from the fourth.  The next push of
an absent tx pops the stale list entry of a and deletes the key a: a becomes absent
although b, which was inserted before it, stays present. -/
theorem stale_entry_evicts_newer :
    ((newTxCache 3).run
        [CacheOp.Push [1], CacheOp.Push [2], CacheOp.Remove [1], CacheOp.Push [1]]).map
      (fun c => ([c.Exists [1], c.Exists [2], c.Exists [3]], c.list)) =
      some ([true, true, false], ([[1], [2], [1]] : List Tx)) ∧
    ((newTxCache 3).run
        [CacheOp.Push [1], CacheOp.Push [2], CacheOp.Remove [1], CacheOp.Push [1],
         CacheOp.Push [3]]).map
      (fun c => ([c.Exists [1], c.Exists [2], c.Exists [3]], c.list)) =
      some ([false, true, true], ([[2], [1], [3]] : List Tx)) := by
  decide

/-- C10: in every cache state reached from `newTxCache C`, `C ≥ 1`, by a sequence of
`Push`, `Remove` and `Reset` calls (none of which panics), the txs for which `Exists` is
true form a set of at most `C` elements, the insertion-order list has at most `C`
entries, and every tx for which `Exists` is true occurs in the list. -/
theorem cache_bounded (C : Int) (hC : 1 ≤ C) (ops : List CacheOp) :
    ∃ c, (newTxCache C).run ops = some c ∧
      (∃ s : Finset Tx, (∀ tx, tx ∈ s ↔ c.Exists tx = true) ∧ (s.card : Int) ≤ C) ∧
      (List.length c.list : Int) ≤ C ∧
      ∀ tx, c.Exists tx = true → tx ∈ c.list := by
  obtain ⟨c, hrun, _, hlen, hsub⟩ := run_bounded C hC ops (newTxCache C) rfl
    (by simp [newTxCache]; omega) (by simp [newTxCache])
  refine ⟨c, hrun, ⟨c.checkMap, ?_, ?_⟩, hlen, ?_⟩
  · intro tx
    simp [txCache.Exists]
  · have h1 : c.checkMap ⊆ c.list.toFinset := by
      intro tx htx
      exact List.mem_toFinset.mpr (hsub tx htx)
    have h2 : c.checkMap.card ≤ c.list.length :=
      le_trans (Finset.card_le_card h1) (List.toFinset_card_le c.list)
    omega
  · intro tx htx
    apply hsub
    simpa [txCache.Exists] using htx

/-- C10 at `C = 2` and a sequence of calls with an overflow, a removal and a reset. -/
theorem cache_bounded_witness :
    ∃ c, (newTxCache 2).run
        [CacheOp.Push [1], CacheOp.Push [2], CacheOp.Remove [1], CacheOp.Push [3],
         CacheOp.Reset, CacheOp.Push [1]] = some c ∧
      (∃ s : Finset Tx, (∀ tx, tx ∈ s ↔ c.Exists tx = true) ∧ (s.card : Int) ≤ 2) ∧
      (List.length c.list : Int) ≤ 2 ∧
      ∀ tx, c.Exists tx = true → tx ∈ c.list :=
  cache_bounded 2 (by decide)
    [CacheOp.Push [1], CacheOp.Push [2], CacheOp.Remove [1], CacheOp.Push [3],
     CacheOp.Reset, CacheOp.Push [1]]

/-- C11: `checkTxWithFilters mem tx` is nil exactly when every registered filter accepts
tx (so it is nil for an empty chain); otherwise it is the error of the first filter, in
registration order, that rejects tx, whatever the filters after it return.
`RegisterFilter` appends to the chain. -/
theorem checkTxWithFilters_first_error (mem : Mempool) (tx : Tx) :
    (checkTxWithFilters mem tx = none ↔ ∀ f ∈ mem.txFilters, f.CheckTx tx = none) ∧
    (mem.txFilters = [] → checkTxWithFilters mem tx = none) ∧
    (∀ pre f post err, mem.txFilters = pre ++ f :: post →
      (∀ g ∈ pre, g.CheckTx tx = none) → f.CheckTx tx = some err →
      checkTxWithFilters mem tx = some err) ∧
    (∀ f, (RegisterFilter mem f).txFilters = mem.txFilters ++ [f]) := by
  refine ⟨checkTxWithFilters_none_iff mem tx, ?_, ?_, fun _ => rfl⟩
  · intro h
    simp [checkTxWithFilters, h]
  · intro pre f post err hsplit hpre hf
    unfold checkTxWithFilters
    rw [hsplit, if_neg (by simp)]
    exact checkTxLoop_first tx pre f post err hpre hf

/-- C12, as stated, fails: when the only filter rejects tx with an error whose message is
`bad`, the message of the error of `ReceiveTx` is
`plugin checktx failed with error: bad`, which is not `plugin checktx failed: bad`. -/
theorem reject_message_differs :
    rejectMem.cache.Exists [1] = false ∧ overLimit rejectMem = false ∧
    (checkTxWithFilters rejectMem [1]).map GoError.Error = some "bad" ∧
    (ReceiveTx rejectMem [1]).map (fun r => r.1.map GoError.Error) =
      some (some "plugin checktx failed with error: bad") ∧
    (ReceiveTx rejectMem [1]).map (fun r => r.1.map GoError.Error) ≠
      some (some ("plugin checktx failed: " ++ "bad")) := by
  decide

/-- C12, amended: when tx is not in the cache, the capacity check passes and the filter
chain rejects tx with the error `cause`, `ReceiveTx` returns an error whose message is
the string `plugin checktx failed with error: ` followed by the message of `cause`, and
leaves the state as it was; `_checkTx` wraps the error in the same way. -/
theorem ReceiveTx_reject_message (mem : Mempool) (tx : Tx) (cause : GoError)
    (he : mem.cache.Exists tx = false) (hl : overLimit mem = false)
    (hf : checkTxWithFilters mem tx = some cause) :
    (∃ e, ReceiveTx mem tx = some (some e, mem) ∧
      e.Error = "plugin checktx failed with error: " ++ cause.Error) ∧
    (_checkTx mem tx).map GoError.Error =
      some ("plugin checktx failed with error: " ++ cause.Error) := by
  refine ⟨⟨_, ReceiveTx_of_reject mem tx cause he hl hf, rfl⟩, ?_⟩
  simp [_checkTx, hf, GoError.Error]

/-- C12, amended, at `rejectMem` and the tx `[1]`. -/
theorem ReceiveTx_reject_message_witness :
    (∃ e, ReceiveTx rejectMem [1] = some (some e, rejectMem) ∧
      e.Error = "plugin checktx failed with error: " ++ (GoError.New "bad").Error) ∧
    (_checkTx rejectMem [1]).map GoError.Error =
      some ("plugin checktx failed with error: " ++ (GoError.New "bad").Error) :=
  ReceiveTx_reject_message rejectMem [1] (GoError.New "bad") (by decide) (by decide)
    (by decide)

/-- C17: after `Update mem h T` the pool is exactly the list of the entries of the pool
before the call whose tx is not in `T` and is accepted by every registered filter, the
entries themselves (counter, height, tx) and their relative order unchanged.  Every entry
whose tx is in `T` or is rejected by a filter is gone, and a following `Reap` returns no
committed and no recheck-failed tx. -/
theorem Update_keeps_exactly (mem : Mempool) (h : Int) (T : List Tx) :
    (Update mem h T).txs =
      mem.txs.filter (fun e => decide (e.Tx ∉ T) &&
        mem.txFilters.all (fun f => (f.CheckTx e.Tx).isNone)) ∧
    List.Sublist (Update mem h T).txs mem.txs ∧
    (∀ e ∈ mem.txs, (e.Tx ∈ T ∨ ∃ f ∈ mem.txFilters, f.CheckTx e.Tx ≠ none) →
      e ∉ (Update mem h T).txs) ∧
    (∀ n, ∀ tx ∈ Reap (Update mem h T) n,
      tx ∉ T ∧ ∀ f ∈ mem.txFilters, f.CheckTx tx = none) := by
  have hrec : ∀ tx, (recheckTx mem tx).isNone = true ↔
      ∀ f ∈ mem.txFilters, f.CheckTx tx = none := by
    intro tx
    rw [Option.isNone_iff_eq_none]
    exact checkTxWithFilters_none_iff mem tx
  have hmem : ∀ e, e ∈ (Update mem h T).txs ↔
      e ∈ mem.txs ∧ e.Tx ∉ T ∧ ∀ f ∈ mem.txFilters, f.CheckTx e.Tx = none := by
    intro e
    rw [Update_txs]
    simp only [List.mem_filter, Bool.and_eq_true, decide_eq_true_eq, hrec]
  refine ⟨?_, ?_, ?_, ?_⟩
  · rw [Update_txs]
    apply List.filter_congr
    intro e _
    have hb : (recheckTx mem e.Tx).isNone =
        mem.txFilters.all (fun f => (f.CheckTx e.Tx).isNone) := by
      rw [Bool.eq_iff_iff, hrec]
      simp [List.all_eq_true]
    rw [hb]
  · rw [Update_txs]
    exact List.filter_sublist _
  · intro e _ hbad hin
    obtain ⟨_, hT, hall⟩ := (hmem e).mp hin
    rcases hbad with hb | ⟨f, hf, hne⟩
    · exact hT hb
    · exact hne (hall f hf)
  · intro n tx htx
    obtain ⟨e, he, rfl⟩ := Reap_subset _ n tx htx
    exact ((hmem e).mp he).2

/-- C18: on a cache of capacity at least 1, `Push tx` returns, and it returns false
exactly when `Exists tx` was true before the call; in that case the cache (map and
list) is unchanged.  Otherwise it returns true and `Exists tx` is true afterwards. -/
theorem Push_returns (cache : txCache) (tx : Tx) (hC : 1 ≤ cache.size) :
    ∃ b c, cache.Push tx = some (b, c) ∧
      (b = false ↔ cache.Exists tx = true) ∧
      (b = false → c = cache) ∧
      (b = true → c.Exists tx = true) := by
  by_cases hin : tx ∈ cache.checkMap
  · refine ⟨false, cache, Push_present cache tx hin, ?_, fun _ => rfl, ?_⟩
    · simp [txCache.Exists, hin]
    · intro h; exact Bool.noConfusion h
  · obtain ⟨c, hc, _, hmem, _⟩ := Push_absent cache tx hin (Or.inr (by omega))
    refine ⟨true, c, hc, ?_, ?_, ?_⟩
    · simp [txCache.Exists, hin]
    · intro h; exact Bool.noConfusion h
    · intro _
      simp [txCache.Exists, hmem]

/-- C18 at a cache of capacity 2 that holds `[1]`: pushing `[1]` again returns false. -/
theorem Push_returns_witness :
    ∃ b c, (txCache.mk 2 {[1]} [[1]]).Push [1] = some (b, c) ∧ b = false ∧
      c = txCache.mk 2 {[1]} [[1]] := by
  obtain ⟨b, c, h, hiff, hsame, _⟩ := Push_returns (txCache.mk 2 {[1]} [[1]]) [1] (by decide)
  have hb : b = false := hiff.mpr (by decide)
  exact ⟨b, c, h, hb, hsame hb⟩

/-- C20: in a state whose cache has capacity at least 1, when tx is not in the cache, the
limit is not both enabled and exceeded and every filter accepts tx, `cache.Push tx`
does not return false (the second `ErrTxInCache` return is not taken): it returns true,
`ReceiveTx` returns nil, and the pool after the call is the pool before it with one entry
more at the tail, which carries tx, the incremented counter and the current height. -/
theorem ReceiveTx_appends (mem : Mempool) (tx : Tx) (hsize : 1 ≤ mem.cache.size)
    (he : mem.cache.Exists tx = false)
    (hl : ¬ (mem.config.mempool_enable_txs_limits = true ∧ Size mem > mem.txLimit))
    (hf : ∀ f ∈ mem.txFilters, f.CheckTx tx = none) :
    (∀ c, mem.cache.Push tx ≠ some (false, c)) ∧
    (∃ c, mem.cache.Push tx = some (true, c)) ∧
    ∃ mem1, ReceiveTx mem tx = some (none, mem1) ∧
      mem1.txs = mem.txs ++ [TxInPool.mk (wrapInt64 (mem.counter + 1)) mem.height tx] ∧
      mem1.counter = wrapInt64 (mem.counter + 1) ∧
      Size mem1 = Size mem + 1 := by
  have habs : tx ∉ mem.cache.checkMap := by simpa [txCache.Exists] using he
  obtain ⟨c, hc, _⟩ := Push_absent mem.cache tx habs (Or.inr (by omega))
  refine ⟨fun c1 => Push_absent_not_false mem.cache c1 tx habs, ⟨c, hc⟩, ?_⟩
  refine ⟨_, ReceiveTx_of_pass mem tx c he ((overLimit_false_iff mem).mpr hl)
    ((checkTxWithFilters_none_iff mem tx).mpr hf) hc, rfl, rfl, ?_⟩
  simp [Size, CList.Len, CList.PushBack]

/-- C20 at `sampleMem` and the tx `[1]`. -/
theorem ReceiveTx_appends_witness :
    ∃ mem1, ReceiveTx sampleMem [1] = some (none, mem1) ∧
      mem1.txs = [TxInPool.mk 1 0 [1]] ∧ mem1.counter = 1 := by
  obtain ⟨_, _, mem1, h, htxs, hcnt, _⟩ :=
    ReceiveTx_appends sampleMem [1] (by decide) (by decide) (by decide)
      (by simp [sampleMem])
  exact ⟨mem1, h, htxs, hcnt⟩

/-- C13: every sequence of calls on a fresh mempool returns, and as long as the counter
has not passed `2 ^ 63 - 1` (at most that many `ReceiveTx` calls returned nil), the
counter is the number of admissions so far, the `Counter` fields of the pool entries are
strictly increasing from head to tail, and none is above the counter. -/
theorem counters_increasing (conf : Config) (opened : Option AutoFile) (mem : Mempool)
    (ops : List Op) (hnew : NewMempool conf opened = some mem) :
    ∃ rs mem1, run mem ops = some (rs, mem1) ∧
      ((successes rs : Int) ≤ 2 ^ 63 - 1 →
        mem1.counter = (successes rs : Int) ∧
        List.Pairwise (fun a b => a < b) (mem1.txs.map (fun e => e.Counter)) ∧
        ∀ e ∈ mem1.txs, e.Counter ≤ mem1.counter) := by
  obtain ⟨htxs, hcnt, hcache, _⟩ := NewMempool_inv conf opened mem hnew
  obtain ⟨rs, mem1, hrun⟩ := run_total ops mem (by rw [hcache]; decide)
  refine ⟨rs, mem1, hrun, ?_⟩
  intro hk
  have := run_counter ops mem mem1 rs 0 (by simpa using hcnt) (by simp [htxs])
    (by simp [htxs]) hrun (by simpa using hk)
  simpa using this

/-- C13 at a run with three admissions, a duplicate, an update and a reap. -/
theorem counters_increasing_witness :
    ∃ rs mem1, run sampleMem
        [Op.ReceiveTx [1], Op.ReceiveTx [2], Op.ReceiveTx [1], Op.Update 1 [[1]],
         Op.ReceiveTx [3], Op.Reap (-1)] = some (rs, mem1) ∧
      mem1.counter = 3 ∧
      List.Pairwise (fun a b => a < b) (mem1.txs.map (fun e => e.Counter)) := by
  obtain ⟨rs, mem1, hrun, h⟩ := counters_increasing sampleConf none sampleMem
    [Op.ReceiveTx [1], Op.ReceiveTx [2], Op.ReceiveTx [1], Op.Update 1 [[1]],
     Op.ReceiveTx [3], Op.Reap (-1)] rfl
  have hrs : (run sampleMem
      [Op.ReceiveTx [1], Op.ReceiveTx [2], Op.ReceiveTx [1], Op.Update 1 [[1]],
       Op.ReceiveTx [3], Op.Reap (-1)]).map Prod.fst =
      some [Ret.err none, Ret.err none, Ret.err (some GoError.ErrTxInCache), Ret.unit,
            Ret.err none, Ret.txs [[2], [3]]] := by decide
  rw [hrun] at hrs
  simp only [Option.map_some', Option.some.injEq] at hrs
  subst hrs
  obtain ⟨h1, h2, _⟩ := h (by decide)
  exact ⟨_, _, hrun, by rw [h1]; decide, h2⟩

/-- C14: every sequence of calls on a fresh mempool returns, and `Size` at the end is
the number of `ReceiveTx` calls that returned nil minus the number of entries removed by
`Update` and `Flush`.  A successful `ReceiveTx` increases `Size` by exactly 1; a failed
`ReceiveTx` leaves the state, hence `Size`, unchanged, and so does `Reap`. -/
theorem Size_accounting (conf : Config) (opened : Option AutoFile) (mem : Mempool)
    (ops : List Op) (hnew : NewMempool conf opened = some mem) :
    (∃ rs mem1, run mem ops = some (rs, mem1) ∧
      Size mem1 = (successes rs : Int) - (totalRemoved mem ops : Int)) ∧
    (∀ (m m1 : Mempool) (tx : Tx), ReceiveTx m tx = some (none, m1) → Size m1 = Size m + 1) ∧
    (∀ (m m1 : Mempool) (tx : Tx) (e : GoError),
      ReceiveTx m tx = some (some e, m1) → m1 = m ∧ Size m1 = Size m) ∧
    (∀ (m : Mempool) (n : Int), step m (Op.Reap n) = some (Ret.txs (Reap m n), m)) := by
  obtain ⟨htxs, _, hcache, _⟩ := NewMempool_inv conf opened mem hnew
  obtain ⟨rs, mem1, hrun⟩ := run_total ops mem (by rw [hcache]; decide)
  refine ⟨⟨rs, mem1, hrun, ?_⟩, ?_, ?_, fun _ _ => rfl⟩
  · have := run_Size ops mem mem1 rs hrun
    simpa [Size, CList.Len, htxs] using this
  · intro m m1 tx h
    obtain ⟨_, _, _, c, _, rfl⟩ := ReceiveTx_nil_inv m m1 tx h
    simp [Size, CList.Len, CList.PushBack]
  · intro m m1 tx e h
    have := ReceiveTx_err_inv m m1 tx e h
    subst this
    exact ⟨rfl, rfl⟩

/-- C14 at a run with two admissions, a rejected duplicate, an update that removes one
entry, a further admission and a flush. -/
theorem Size_accounting_witness :
    ∃ rs mem1, run sampleMem
        [Op.ReceiveTx [1], Op.ReceiveTx [2], Op.ReceiveTx [1], Op.Update 1 [[1]],
         Op.ReceiveTx [3], Op.Flush] = some (rs, mem1) ∧
      Size mem1 = (successes rs : Int) -
        (totalRemoved sampleMem
          [Op.ReceiveTx [1], Op.ReceiveTx [2], Op.ReceiveTx [1], Op.Update 1 [[1]],
           Op.ReceiveTx [3], Op.Flush] : Int) :=
  (Size_accounting sampleConf none sampleMem
    [Op.ReceiveTx [1], Op.ReceiveTx [2], Op.ReceiveTx [1], Op.Update 1 [[1]],
     Op.ReceiveTx [3], Op.Flush] rfl).1

/-- C15: with a WAL configured, the WAL being a byte log, in a state whose cache has a
positive capacity, a `ReceiveTx tx` that returns nil appends the bytes of tx followed by
the byte `0x0A` to the log, and one that returns an error leaves the log unchanged.  So
after a sequence of calls the log is the log at the start followed by the records
`tx ++ [0x0A]` of the admitted txs, in the order of admission. -/
theorem wal_records (mem : Mempool) (af : AutoFile) (tx : Tx) (ops : List Op)
    (hw : mem.wal = some af) (hsize : 0 < mem.cache.size) :
    (∃ err mem1, ReceiveTx mem tx = some (err, mem1) ∧
      (err = none → mem1.wal = some { log := af.log ++ (tx ++ [10]) }) ∧
      (err ≠ none → mem1.wal = some af)) ∧
    (∃ rs mem1, run mem ops = some (rs, mem1) ∧
      mem1.wal = some { log := af.log ++ walRecords (admitted ops rs) }) := by
  constructor
  · obtain ⟨r, mem1, hstep, _⟩ := step_total mem (Op.ReceiveTx tx) hsize
    rcases step_ReceiveTx_inv mem mem1 tx r hstep with ⟨_, hrec⟩ | ⟨e, hr, hm⟩
    · refine ⟨none, mem1, hrec, ?_, fun h => absurd rfl h⟩
      intro _
      obtain ⟨_, _, _, c, _, rfl⟩ := ReceiveTx_nil_inv mem mem1 tx hrec
      simp only [hw, walWrites_ok af tx]
    · subst hm
      simp only [step, hr, Option.map_eq_some', Prod.mk.injEq, Ret.err.injEq] at hstep
      obtain ⟨⟨err, m⟩, hrec, herr, hm⟩ := hstep
      simp only [] at herr hm
      subst herr hm
      exact ⟨_, _, hrec, fun h => by simp at h, fun _ => hw⟩
  · obtain ⟨rs, mem1, hrun⟩ := run_total ops mem hsize
    exact ⟨rs, mem1, hrun, run_wal ops mem mem1 af rs hw hrun⟩

/-- C15 at `sampleMem` with an empty WAL: after `[1, 2]` is admitted, `[1, 2]` is
refused as a duplicate and `[3]` is admitted, the log is `1, 2, 0x0A, 3, 0x0A`. -/
theorem wal_records_witness :
    ∃ rs mem1, run (walMem [])
        [Op.ReceiveTx [1, 2], Op.ReceiveTx [1, 2], Op.ReceiveTx [3]] = some (rs, mem1) ∧
      mem1.wal = some { log := [1, 2, 10, 3, 10] } := by
  obtain ⟨rs, mem1, hrun, hwal⟩ := (wal_records (walMem []) { log := [] }
    [1] [Op.ReceiveTx [1, 2], Op.ReceiveTx [1, 2], Op.ReceiveTx [3]] rfl (by decide)).2
  have hrs : (run (walMem [])
      [Op.ReceiveTx [1, 2], Op.ReceiveTx [1, 2], Op.ReceiveTx [3]]).map Prod.fst =
      some [Ret.err none, Ret.err (some GoError.ErrTxInCache), Ret.err none] := by decide
  rw [hrun] at hrs
  simp only [Option.map_some', Option.some.injEq] at hrs
  subst hrs
  refine ⟨_, _, hrun, ?_⟩
  rw [hwal]
  decide

/-- C19: every sequence of calls on a fresh mempool returns, and when at most
`cacheSize` calls of `ReceiveTx` returned nil since the creation or the last `Flush` (the
seen-cache has not had to evict), every entry of the pool has its tx present in the
seen-cache and no two entries of the pool carry the same tx bytes. -/
theorem pool_in_cache (conf : Config) (opened : Option AutoFile) (mem : Mempool)
    (ops : List Op) (hnew : NewMempool conf opened = some mem) :
    ∃ rs mem1, run mem ops = some (rs, mem1) ∧
      ((admitsSinceFlush 0 ops rs : Int) ≤ cacheSize →
        (∀ e ∈ mem1.txs, mem1.cache.Exists e.Tx = true) ∧
        (mem1.txs.map (fun e => e.Tx)).Nodup) := by
  obtain ⟨htxs, _, hcache, _⟩ := NewMempool_inv conf opened mem hnew
  obtain ⟨rs, mem1, hrun⟩ := run_total ops mem (by rw [hcache]; decide)
  refine ⟨rs, mem1, hrun, ?_⟩
  intro hle
  have h := (run_pool_in_cache cacheSize ops mem mem1 rs 0 (by rw [hcache]; rfl)
    (by intro _; simp [htxs, hcache, newTxCache]) hrun).2 hle
  refine ⟨?_, h.2.1⟩
  intro e he
  simpa [txCache.Exists] using h.2.2 e he

/-- C19 at a run with admissions, an update that removes an entry, a flush and a further
admission. -/
theorem pool_in_cache_witness :
    ∃ rs mem1, run sampleMem
        [Op.ReceiveTx [1], Op.ReceiveTx [2], Op.Update 1 [[1]], Op.ReceiveTx [3],
         Op.Flush, Op.ReceiveTx [2]] = some (rs, mem1) ∧
      (∀ e ∈ mem1.txs, mem1.cache.Exists e.Tx = true) ∧
      (mem1.txs.map (fun e => e.Tx)).Nodup := by
  obtain ⟨rs, mem1, hrun, h⟩ := pool_in_cache sampleConf none sampleMem
    [Op.ReceiveTx [1], Op.ReceiveTx [2], Op.Update 1 [[1]], Op.ReceiveTx [3],
     Op.Flush, Op.ReceiveTx [2]] rfl
  have hrs : (run sampleMem
      [Op.ReceiveTx [1], Op.ReceiveTx [2], Op.Update 1 [[1]], Op.ReceiveTx [3],
       Op.Flush, Op.ReceiveTx [2]]).map Prod.fst =
      some [Ret.err none, Ret.err none, Ret.unit, Ret.err none, Ret.unit, Ret.err none] := by
    decide
  rw [hrun] at hrs
  simp only [Option.map_some', Option.some.injEq] at hrs
  subst hrs
  exact ⟨_, _, hrun, h (by decide)⟩

end AnnChain
